import Mathlib

/-!
Verification development for the cmake trace profiler script
(src/cmake-profile-stat.py).

The development shallowly embeds the script into Lean:

* `CmakeTraceInfo` and `CmakeTrace` model the classes `_CmakeTraceInfo` and
  `_CmakeTrace`; the mutable pointer graph of `_CmakeTrace` objects is modelled
  by a purely functional tree rooted at the sentinel node together with the
  path of the currently active parent node (`BuildState`).
* `update_traces`, `collect_loop` / `collect_final` / `collect_stats`,
  `parse_go` / `parse_cmake_log` and `print_traces_loop` / `print_traces`
  model the functions `_update_traces`, `_collect_stats`, `_parse_cmake_log`
  and `_print_traces`.
* Python float timestamps and durations are modelled as exact rationals.
  All rational arithmetic used inside the embedded program goes through the
  wrappers `qadd`, `qsub`, `qmul`, `qdiv`, `qblt` below, which are proved
  equal to the standard operations; the wrappers are built from
  `Rat.normalize` so that closed runs of the embedded program reduce inside
  the kernel (the core operations on `Rat` are irreducible).
-/

namespace CmakeProfileStat

/-! ### Kernel-reducible rational arithmetic -/

/-- Addition on `ℚ`.  Equal to `a + b` (see `qadd_eq`). -/
def qadd (a b : ℚ) : ℚ :=
  Rat.normalize (a.num * (b.den : Int) + b.num * (a.den : Int)) (a.den * b.den)
    (Nat.mul_ne_zero a.den_nz b.den_nz)

/-- Subtraction on `ℚ`.  Equal to `a - b` (see `qsub_eq`). -/
def qsub (a b : ℚ) : ℚ :=
  Rat.normalize (a.num * (b.den : Int) - b.num * (a.den : Int)) (a.den * b.den)
    (Nat.mul_ne_zero a.den_nz b.den_nz)

/-- Multiplication on `ℚ`.  Equal to `a * b` (see `qmul_eq`). -/
def qmul (a b : ℚ) : ℚ :=
  Rat.normalize (a.num * b.num) (a.den * b.den)
    (Nat.mul_ne_zero a.den_nz b.den_nz)

/-- Division on `ℚ`.  Equal to `a / b` (see `qdiv_eq`). -/
def qdiv (a b : ℚ) : ℚ :=
  Rat.divInt (a.num * (b.den : Int)) ((a.den : Int) * b.num)

/-- Boolean strict comparison on `ℚ`.  Reflects `a < b` (see `qblt_iff`). -/
def qblt (a b : ℚ) : Bool :=
  decide (a.num * (b.den : Int) < b.num * (a.den : Int))


/-- Sum of a list of rationals via `qadd`.  Equal to `List.sum`
(see `qsum_eq`). -/
def qsum : List ℚ → ℚ
  | [] => 0
  | x :: xs => qadd x (qsum xs)


/-! ### Data model

`CmakeTraceInfo` is `_CmakeTraceInfo` (a call site: file, line, code text).
`CmakeTrace` is `_CmakeTrace`: `duration` is the mutable cumulative duration,
`trace_info` is the optional call site (`none` only for the sentinel root),
and `subtraces` the ordered children.  The Python `parent_trace` pointer is
represented positionally: a node's parent is the node above it in the tree,
and the currently active parent is stored as a path in `BuildState`.

`creation_duration` is not a field of the Python object: it records the
`duration` argument passed to `_CmakeTrace.__init__` (the attributed duration
of the node's own event), which the script never changes afterwards.  It is
carried along solely so that the specification's ancestor-propagation
invariant can be stated; erasing the field recovers the source data model.
-/

structure CmakeTraceInfo where
  cmake_file : String
  cmake_line : Int
  cmake_code_line : String
deriving DecidableEq

inductive CmakeTrace : Type where
  | mk (duration : ℚ) (creation_duration : ℚ) (trace_info : Option CmakeTraceInfo)
      (subtraces : List CmakeTrace)

def CmakeTrace.duration : CmakeTrace → ℚ
  | .mk d _ _ _ => d

def CmakeTrace.creation_duration : CmakeTrace → ℚ
  | .mk _ c _ _ => c

def CmakeTrace.trace_info : CmakeTrace → Option CmakeTraceInfo
  | .mk _ _ i _ => i

def CmakeTrace.subtraces : CmakeTrace → List CmakeTrace
  | .mk _ _ _ s => s

/-- Sum of the cumulative durations of the trees in a list (the script's
`sum(t.duration for t in all_traces)`). -/
def sumDurations : List CmakeTrace → ℚ
  | [] => 0
  | t :: ts => qadd t.duration (sumDurations ts)

mutual

/-- Total number of `_CmakeTrace` nodes in a tree (the node itself plus all
descendants). -/
def countNodes : CmakeTrace → Nat
  | .mk _ _ _ subs => 1 + countNodesList subs

/-- Total number of `_CmakeTrace` nodes in a forest. -/
def countNodesList : List CmakeTrace → Nat
  | [] => 0
  | t :: ts => countNodes t + countNodesList ts

end

mutual

/-- Hereditary check: every node's cumulative duration equals its creation
duration plus the sum of its direct children's cumulative durations. -/
def durationExact : CmakeTrace → Bool
  | .mk d c _ subs => decide (d = qadd c (sumDurations subs)) && durationExactList subs

def durationExactList : List CmakeTrace → Bool
  | [] => true
  | t :: ts => durationExact t && durationExactList ts

end

mutual

/-- Hereditary check: every node's cumulative duration is at least the sum of
its direct children's cumulative durations. -/
def durationGeChildren : CmakeTrace → Bool
  | .mk d _ _ subs => !qblt d (sumDurations subs) && durationGeChildrenList subs

def durationGeChildrenList : List CmakeTrace → Bool
  | [] => true
  | t :: ts => durationGeChildren t && durationGeChildrenList ts

end

mutual

/-- Hereditary check: every node's creation duration is nonnegative. -/
def creationNonneg : CmakeTrace → Bool
  | .mk _ c _ subs => !qblt c 0 && creationNonnegList subs

def creationNonnegList : List CmakeTrace → Bool
  | [] => true
  | t :: ts => creationNonneg t && creationNonnegList ts

end

mutual

/-- Hereditary check: every proper descendant of the node carries a call-site
description (in the script only the sentinel root has `trace_info = None`). -/
def subInfoSome : CmakeTrace → Bool
  | .mk _ _ _ subs => subInfoSomeList subs

def subInfoSomeList : List CmakeTrace → Bool
  | [] => true
  | t :: ts => (t.trace_info.isSome && subInfoSome t) && subInfoSomeList ts

end

/-! ### Tree navigation and mutation

The Python objects form a mutable graph; here a node is addressed by the path
of child indices leading to it from the sentinel root.  `getAt` dereferences a
path.  `attachAt` performs, in one functional step, exactly what
`_CmakeTrace.__init__` together with `parent_trace.subtraces.append(...)`
performs imperatively: it appends a fresh node (cumulative duration =
creation duration = `dur`) as the last child of the node at `p` and adds
`dur` to the cumulative duration of the target node and of each of its
ancestors (the propagation loop `while True: parent.duration += duration`).
-/

def getAt : CmakeTrace → List Nat → Option CmakeTrace
  | t, [] => some t
  | t, k :: p =>
    match t.subtraces[k]? with
    | some c => getAt c p
    | none => none

def attachAt : CmakeTrace → List Nat → ℚ → CmakeTraceInfo → Option CmakeTrace
  | .mk d c i subs, [], dur, ti =>
    some (.mk (qadd d dur) c i (subs ++ [.mk dur dur (some ti) []]))
  | .mk d c i subs, k :: p, dur, ti =>
    match subs[k]? with
    | some child =>
      match attachAt child p dur ti with
      | some child2 => some (.mk (qadd d dur) c i (subs.set k child2))
      | none => none
    | none => none

/-- Error outcomes of `_update_traces`.  The first two are the two
`assert` statements; `indexError` is the `parent_trace.subtraces[-1]`
lookup on an empty list in the `nesting_diff == 1` branch; `invalidPath`
marks dereferencing a dangling path, which cannot happen from a reachable
state. -/
inductive BuildError : Type where
  | ascendPastRoot
  | nestingJump
  | indexError
  | invalidPath
deriving DecidableEq

/-- Python 2 `sys.maxint` on a 64-bit platform, the initial first component
of `insertion_trace`. -/
def maxint : Nat := 9223372036854775807

/-- State of the tree builder: the sentinel root `_CmakeTrace(0, None, None)`,
the path of the node currently referenced by `parent_trace`, and the list
`traces` of recorded top-level entries (as paths). -/
structure BuildState where
  root : CmakeTrace
  path : List Nat
  traces : List (List Nat)

def initBuildState : BuildState := ⟨.mk 0 0 none [], [], []⟩

/-- Call-site info of the node at path `q` (`none` for the sentinel root or a
dangling path). -/
def frameInfo (root : CmakeTrace) (q : List Nat) : Option CmakeTraceInfo :=
  match getAt root q with
  | some t => t.trace_info
  | none => none

/-- The paths enumerated by walking from the node at `q0` up to the root:
`q0` and all its shorter prefixes, innermost first. -/
def framePaths (q0 : List Nat) : List (List Nat) :=
  ((List.range (q0.length + 1)).reverse).map (fun n => q0.take n)

/-- Starting frame of `enumerate_frames`: the last child of `parent_trace`
if it has children, otherwise `parent_trace` itself. -/
def framesStart (st : BuildState) : List Nat :=
  match getAt st.root st.path with
  | some t => if t.subtraces.isEmpty then st.path else st.path ++ [t.subtraces.length - 1]
  | none => st.path

/-- The frames yielded by `enumerate_frames(parent_trace)`, each paired with
its call-site info. -/
def framesOf (st : BuildState) : List (List Nat × Option CmakeTraceInfo) :=
  (framePaths (framesStart st)).map (fun q => (q, frameInfo st.root q))

/-- The insertion-point search of `_update_traces` for unknown nesting.
The accumulator is the pair `insertion_trace = (distance, trace)`; a frame's
parent is its path with the last component dropped. -/
def heuristic_loop (prev : CmakeTraceInfo) :
    List (List Nat × Option CmakeTraceInfo) → Nat × Option (List Nat) →
    Nat × Option (List Nat)
  | [], best => best
  | (q, oinfo) :: rest, (bestD, bestT) =>
    match oinfo with
    | some ti =>
      if ti.cmake_file = prev.cmake_file then
        if (ti.cmake_line - prev.cmake_line).natAbs < bestD then
          heuristic_loop prev rest ((ti.cmake_line - prev.cmake_line).natAbs, some q.dropLast)
        else
          heuristic_loop prev rest (bestD, bestT)
      else if bestT.isNone then
        heuristic_loop prev rest (maxint, some q)
      else
        heuristic_loop prev rest (bestD, bestT)
    | none =>
      if bestT.isNone then
        heuristic_loop prev rest (maxint, some q)
      else
        heuristic_loop prev rest (bestD, bestT)

/-- Shared tail of every successful `_update_traces` branch: create the new
`_CmakeTrace` under the resolved parent `pp` (constructor propagation
included), and, when the resolved parent is the sentinel root
(`parent_trace.trace_info is None`), record `parent_trace.subtraces[-1]` in
`traces`.  The returned state's `path` is the returned `parent_trace`. -/
def attachRecord (st : BuildState) (pp : List Nat) (dur : ℚ) (ti : CmakeTraceInfo) :
    Except BuildError BuildState :=
  match attachAt st.root pp dur ti with
  | none => .error .invalidPath
  | some root2 =>
    match getAt root2 pp with
    | none => .error .invalidPath
    | some pt =>
      .ok ⟨root2, pp,
        if pt.trace_info.isNone then st.traces ++ [pp ++ [pt.subtraces.length - 1]]
        else st.traces⟩

/-- The clamped duration `current_timeval - previous_timeval`, never
negative. -/
def clampedDuration (current_timeval previous_timeval : ℚ) : ℚ :=
  if qblt (qsub current_timeval previous_timeval) 0 then 0
  else qsub current_timeval previous_timeval

/-- Model of `_update_traces`. -/
def update_traces (st : BuildState) (current_timeval previous_timeval : ℚ)
    (current_nesting previous_nesting : Int) (previous_trace_info : CmakeTraceInfo) :
    Except BuildError BuildState :=
  let duration := clampedDuration current_timeval previous_timeval
  if current_nesting = 0 then
    let ins := heuristic_loop previous_trace_info (framesOf st) (maxint, none)
    let pp := match ins.2 with | some q => q | none => st.path
    attachRecord st pp duration previous_trace_info
  else
    let nesting_diff := current_nesting - previous_nesting
    if nesting_diff = 0 then
      attachRecord st st.path duration previous_trace_info
    else if nesting_diff < 0 then
      if (-nesting_diff).toNat ≤ st.path.length then
        attachRecord st (st.path.take (st.path.length - (-nesting_diff).toNat)) duration
          previous_trace_info
      else .error .ascendPastRoot
    else if nesting_diff = 1 then
      match getAt st.root st.path with
      | some t =>
        if t.subtraces.isEmpty then .error .indexError
        else attachRecord st (st.path ++ [t.subtraces.length - 1]) duration previous_trace_info
      | none => .error .invalidPath
    else .error .nestingJump

/-! ### The collection loop (`_collect_stats`) -/

/-- A parsed trace event: the triple yielded by `_parse_cmake_log`. -/
structure Event where
  nesting : Option Int
  timeval : ℚ
  trace_info : CmakeTraceInfo
deriving DecidableEq

/-- Loop state of `_collect_stats`: `previous_nesting`,
`previous_nesting_diff`, the pending previous event (timeval and info), and
the tree builder state. -/
structure LoopState where
  previous_nesting : Int
  previous_nesting_diff : Int
  pending : Option (ℚ × CmakeTraceInfo)
  bstate : BuildState

def initLoopState : LoopState := ⟨1, 0, none, initBuildState⟩

/-- The for-loop of `_collect_stats` over the parsed events. -/
def collect_loop : List Event → LoopState → Except BuildError LoopState
  | [], ls => .ok ls
  | e :: es, ls =>
    let step : Except BuildError BuildState :=
      match ls.pending with
      | some pd =>
        update_traces ls.bstate e.timeval pd.1 ls.previous_nesting
          (ls.previous_nesting - ls.previous_nesting_diff) pd.2
      | none => .ok ls.bstate
    match step with
    | .error err => .error err
    | .ok bst =>
      match e.nesting with
      | none => collect_loop es ⟨0, 0, some (e.timeval, e.trace_info), bst⟩
      | some k =>
        collect_loop es ⟨k, k - ls.previous_nesting, some (e.timeval, e.trace_info), bst⟩

/-- The literal `10E-7` added to the last timestamp in `_collect_stats`. -/
def smallestDuration : ℚ := mkRat 1 1000000

/-- The end-of-stream materialization of the final pending event. -/
def collect_final (ls : LoopState) : Except BuildError BuildState :=
  match ls.pending with
  | none => .ok ls.bstate
  | some pd =>
    update_traces ls.bstate (qadd pd.1 smallestDuration) pd.1 ls.previous_nesting
      ls.previous_nesting pd.2

/-- Model of `_collect_stats` (the `traces` list starts empty, the sentinel
root is `_CmakeTrace(0, None, None)`). -/
def collect_stats (events : List Event) : Except BuildError BuildState :=
  match collect_loop events initLoopState with
  | .error err => .error err
  | .ok ls => collect_final ls

/-! ### The parser (`_parse_cmake_log`) -/

/-- One physical input line, pre-classified against the trace-line grammar
regex: either it matched (with the captured fields) or it did not. -/
inductive LogLine : Type where
  | parsed (timestamp : ℚ) (frame : Option Int) (file : String) (line : Int) (code : String)
  | unmatched (text : String)
deriving DecidableEq

/-- Parenthesis balance counter of `match_parens`. -/
def parenNesting (cs : List Char) : Int :=
  cs.foldl (fun n c => if c = '(' then n + 1 else if c = ')' then n - 1 else n) 0

/-- Model of the inner function `match_parens`. -/
def match_parens (code : String) : Bool :=
  decide (parenNesting code.data = 0)

/-- Python `\s` for an ASCII string. -/
def isPySpace (c : Char) : Bool :=
  c = ' ' || c = '\t' || c = '\n' || c = '\r' || c = '\x0b' || c = '\x0c'

/-- Helper for the regex tail: optional whitespace then an opening paren. -/
def startsParenAfterSpaces (cs : List Char) : Bool :=
  match cs.dropWhile isPySpace with
  | '(' :: _ => true
  | [] => false
  | _ :: _ => false

/-- Model of `cmake_commands_with_nesting_bugs_re.search`, the anchored
case-sensitive regex on the code text. -/
def nestingBugSearch (code : String) : Bool :=
  match code.data with
  | 'e' :: 'l' :: 's' :: 'e' :: rest =>
    startsParenAfterSpaces rest ||
      (match rest with
       | 'i' :: 'f' :: rest2 => startsParenAfterSpaces rest2
       | _ => false)
  | _ => false

/-- The nesting value stored for a freshly matched line when nesting is not
ignored: the captured frame, incremented when the nesting-bug regex fires. -/
def bumpNesting (frame : Option Int) (code : String) : Option Int :=
  match frame with
  | none => none
  | some n => some (if nestingBugSearch code then n + 1 else n)

/-- The parser loop of `_parse_cmake_log`.  Arguments after the line list are
the loop state: `current_nesting` and the pending event
(`current_timeval`, `current_trace_info`).  Returns the yielded events and
the texts of the lines reported as `Ignored:`. -/
def parse_go (ignore_nesting : Bool) :
    List LogLine → Option Int → Option (ℚ × CmakeTraceInfo) → List Event × List String
  | [], cn, pending =>
    match pending with
    | some pd => ([⟨cn, pd.1, pd.2⟩], [])
    | none => ([], [])
  | .unmatched text :: ls, cn, pending =>
    match pending with
    | none =>
      let r := parse_go ignore_nesting ls cn none
      (r.1, text :: r.2)
    | some pd =>
      if match_parens pd.2.cmake_code_line then
        let r := parse_go ignore_nesting ls cn (some pd)
        (r.1, text :: r.2)
      else
        parse_go ignore_nesting ls cn
          (some (pd.1, ⟨pd.2.cmake_file, pd.2.cmake_line,
            pd.2.cmake_code_line ++ "\\n" ++ text⟩))
  | .parsed ts fr file ln code :: ls, cn, pending =>
    let cn2 := if ignore_nesting then cn else bumpNesting fr code
    let r := parse_go ignore_nesting ls cn2 (some (ts, ⟨file, ln, code⟩))
    match pending with
    | some pd => (⟨cn, pd.1, pd.2⟩ :: r.1, r.2)
    | none => (r.1, r.2)

/-- Model of `_parse_cmake_log`. -/
def parse_cmake_log (lines : List LogLine) (ignore_nesting : Bool) :
    List Event × List String :=
  parse_go ignore_nesting lines none none

/-- Number of input lines matching the trace-line grammar. -/
def numParsedLines (lines : List LogLine) : Nat :=
  (lines.filterMap (fun l =>
    match l with
    | .parsed _ _ _ _ _ => some Unit.unit
    | .unmatched _ => none)).length

/-- The frame field of the first line matching the grammar, if any line
matches. -/
def firstParsedFrame (lines : List LogLine) : Option (Option Int) :=
  lines.findSome? (fun l =>
    match l with
    | .parsed _ fr _ _ _ => some fr
    | .unmatched _ => none)

/-! ### The report renderer (`_print_traces`) -/

/-- The report-shaping options consumed by `_print_traces`. -/
structure ReportArgs where
  threshold : ℚ
  depth : Int
  sort_traces : Bool
  one : Bool
deriving DecidableEq

/-- One line of the report: the data printed for one visited node. -/
structure RenderedLine where
  trace_info : Option CmakeTraceInfo
  indent : Nat
  duration : ℚ
  percentage : ℚ
deriving DecidableEq

/-- Stable insertion (descending cumulative duration); `sortedByDurationDesc`
models `sorted(traces, key=lambda x: x.duration, reverse=True)`. -/
def insertByDuration (x : CmakeTrace) : List CmakeTrace → List CmakeTrace
  | [] => [x]
  | y :: ys =>
    if qblt x.duration y.duration then y :: insertByDuration x ys
    else x :: y :: ys

def sortedByDurationDesc (l : List CmakeTrace) : List CmakeTrace :=
  l.foldr insertByDuration []

/-- Model of the recursive `print_traces_loop`.  The Boolean flag
distinguishes entering a sibling level (where the level is optionally
sorted) from continuing the iteration over an already ordered level; the
fuel argument only makes the recursion structural and is irrelevant on every
run started with enough fuel (see `print_traces_loop_stable`). -/
def print_traces_loop (args : ReportArgs) (whole_duration : ℚ) :
    Nat → Bool → List CmakeTrace → Nat → List RenderedLine
  | 0, _, _, _ => []
  | fuel + 1, true, traces, indent =>
    print_traces_loop args whole_duration fuel false
      (if args.sort_traces then sortedByDurationDesc traces else traces) indent
  | _ + 1, false, [], _ => []
  | fuel + 1, false, t :: ts, indent =>
    if args.depth ≠ 0 ∧ (indent : Int) + 1 > args.depth then []
    else if qblt (qdiv t.duration whole_duration) args.threshold then []
    else
      ⟨t.trace_info, indent, t.duration, qmul (qdiv t.duration whole_duration) 100⟩ ::
        (print_traces_loop args whole_duration fuel true t.subtraces (indent + 1) ++
          if args.one && indent == 0 then []
          else print_traces_loop args whole_duration fuel false ts indent)

/-- Fuel sufficient for a full rendering of a forest. -/
def renderFuel (ts : List CmakeTrace) : Nat := 2 * countNodesList ts + 2

/-- Model of `_print_traces`. -/
def print_traces (args : ReportArgs) (all_traces : List CmakeTrace)
    (whole_duration : ℚ) : List RenderedLine :=
  print_traces_loop args whole_duration (renderFuel all_traces) true all_traces 0

/-! ### Predicates and derived data used by the statements -/

/-- Discriminator for `Except` results. -/
def isOk {A : Type} : Except BuildError A → Bool
  | .ok _ => true
  | .error _ => false

/-- Whether the node currently referenced by `parent_trace` has no children
(the situation in which the `nesting_diff == 1` branch raises IndexError). -/
def subtracesEmptyAt (st : BuildState) : Bool :=
  match getAt st.root st.path with
  | some t => t.subtraces.isEmpty
  | none => false

/-- Well-formedness of a builder state.  All of these hold for the initial
state and are preserved by every successful `update_traces` step: the
ancestor-propagation equality, nonnegative creation durations, the sentinel
root with zero creation duration and no call site, call sites on every other
node, a dereferenceable `parent_trace` path, and the `traces` list recording
exactly the root's children in order. -/
@[reducible] def WF (st : BuildState) : Prop :=
  durationExact st.root = true ∧
  creationNonneg st.root = true ∧
  st.root.creation_duration = 0 ∧
  st.root.trace_info = none ∧
  subInfoSome st.root = true ∧
  (getAt st.root st.path).isSome = true ∧
  st.traces = (List.range st.root.subtraces.length).map (fun i => [i])

/-- The durations attributed by the for-loop of `_collect_stats`, given the
pending previous timestamp: one clamped difference of consecutive timestamps
per materialized event. -/
def loopDurations : Option ℚ → List Event → List ℚ
  | none, [] => []
  | none, e :: es => loopDurations (some e.timeval) es
  | some _, [] => []
  | some pt, e :: es => clampedDuration e.timeval pt :: loopDurations (some e.timeval) es

/-- All durations attributed over a whole run of `_collect_stats`: the
consecutive-difference durations plus the nominal `10E-7` duration of the
final pending event. -/
def attributedDurations (events : List Event) : List ℚ :=
  loopDurations none events ++ (if events.isEmpty then [] else [smallestDuration])

/-- Minimum of a list of naturals. -/
def listMinNat : List Nat → Option Nat
  | [] => none
  | x :: xs =>
    match listMinNat xs with
    | none => some x
    | some m => some (min x m)

/-- Modelled from the spec wording of the nesting resolver: the frames whose
call site shares the previous event's source file, each with its absolute
source-line distance. -/
def resolver_candidates (prev : CmakeTraceInfo)
    (frames : List (List Nat × Option CmakeTraceInfo)) : List (Nat × List Nat) :=
  frames.filterMap (fun f =>
    match f.2 with
    | some ti =>
      if ti.cmake_file = prev.cmake_file then
        some ((ti.cmake_line - prev.cmake_line).natAbs, f.1)
      else none
    | none => none)

/-- Modelled from the spec wording of the nesting resolver: among the frames
sharing the file, select the first frame attaining the smallest absolute
source-line distance and return its parent; if no frame shares the file, the
first (innermost) frame itself is the attachment point. -/
def resolver_spec (prev : CmakeTraceInfo)
    (frames : List (List Nat × Option CmakeTraceInfo)) : Option (List Nat) :=
  match listMinNat ((resolver_candidates prev frames).map Prod.fst) with
  | some m =>
    ((resolver_candidates prev frames).find? (fun c => c.1 == m)).map
      (fun c => c.2.dropLast)
  | none => (frames.head?).map Prod.fst

/-- Modelled from the spec wording of the nesting-bug workaround: the code
begins, case-insensitively and ignoring leading whitespace, with the keyword
else or elseif applied to an opening parenthesis. -/
def specElseKeyword (code : String) : Bool :=
  match (code.data.dropWhile isPySpace).map Char.toLower with
  | 'e' :: 'l' :: 's' :: 'e' :: rest =>
    startsParenAfterSpaces rest ||
      (match rest with
       | 'i' :: 'f' :: rest2 => startsParenAfterSpaces rest2
       | _ => false)
  | _ => false

/-! ### Concrete inputs used by witnesses and counterexamples -/

/-- Seven depth-annotated events with nesting depths 1,2,1,2,3,2,1
(one event per second, all in one file on lines 1 to 7). -/
def eventsDepths : List Event :=
  [⟨some 1, 0, ⟨"f", 1, ""⟩⟩, ⟨some 2, 1, ⟨"f", 2, ""⟩⟩, ⟨some 1, 2, ⟨"f", 3, ""⟩⟩,
   ⟨some 2, 3, ⟨"f", 4, ""⟩⟩, ⟨some 3, 4, ⟨"f", 5, ""⟩⟩, ⟨some 2, 5, ⟨"f", 6, ""⟩⟩,
   ⟨some 1, 6, ⟨"f", 7, ""⟩⟩]

/-- A source line number whose distance from line 1 equals `sys.maxint`. -/
def farLine : Int := 9223372036854775808

/-- Four events without nesting information; the third shares its file with
the first but at source-line distance `sys.maxint`. -/
def eventsFar : List Event :=
  [⟨none, 0, ⟨"fa", 1, ""⟩⟩, ⟨none, 1, ⟨"fb", 1, ""⟩⟩,
   ⟨none, 2, ⟨"fa", farLine, ""⟩⟩, ⟨none, 3, ⟨"fc", 1, ""⟩⟩]

/-- The frame chain seen when the third event of `eventsFar` is materialized:
innermost the node of the second event, then the node of the first event,
then the sentinel root. -/
def framesFar : List (List Nat × Option CmakeTraceInfo) :=
  [([0, 0], some ⟨"fb", 1, ""⟩), ([0], some ⟨"fa", 1, ""⟩), ([], none)]

/-- The call site of the third event of `eventsFar`. -/
def prevFar : CmakeTraceInfo := ⟨"fa", farLine, ""⟩

/-- A near call site sharing the file of the second frame of `framesFar`. -/
def prevNear : CmakeTraceInfo := ⟨"fa", 3, ""⟩

/-- Two depth-annotated events whose first event carries depth 2. -/
def eventsFirstDepthTwo : List Event :=
  [⟨some 2, 0, ⟨"f", 1, ""⟩⟩, ⟨some 1, 1, ⟨"f", 2, ""⟩⟩]

/-- Four input lines: a parseable line with unbalanced parentheses, its
continuation, a second parseable line, and an ignored line. -/
def linesMixed : List LogLine :=
  [.parsed 0 (some 1) "a.cmake" 1 "foo(", .unmatched "bar)",
   .parsed 1 (some 1) "a.cmake" 2 "baz()", .unmatched "junk"]

/-- The builder state produced by collecting the events of `linesMixed`. -/
def stMixed : BuildState :=
  ⟨.mk (mkRat 1000001 1000000) 0 none
      [.mk 1 1 (some ⟨"a.cmake", 1, "foo(\\nbar)"⟩) [],
       .mk smallestDuration smallestDuration (some ⟨"a.cmake", 2, "baz()"⟩) []],
    [], [[0], [1]]⟩

/-- A single depth-annotated event. -/
def eventsSingle : List Event := [⟨some 1, 0, ⟨"w.cmake", 1, "x()"⟩⟩]

/-- The builder state produced by collecting `eventsSingle`. -/
def stSingle : BuildState :=
  ⟨.mk smallestDuration 0 none
      [.mk smallestDuration smallestDuration (some ⟨"w.cmake", 1, "x()"⟩) []],
    [], [[0]]⟩

/-- Two input lines: the first lacks the nesting-depth field, the second
carries it. -/
def linesLateFrame : List LogLine :=
  [.parsed 0 none "f" 1 "a()", .parsed 1 (some 1) "f" 2 "b()"]

/-- A childless top-level node of relative duration 3/5. -/
def leafThreeFifths : CmakeTrace := .mk (mkRat 3 5) (mkRat 3 5) (some ⟨"A", 1, ""⟩) []

/-- A childless top-level node of relative duration 2/5. -/
def leafTwoFifths : CmakeTrace := .mk (mkRat 2 5) (mkRat 2 5) (some ⟨"B", 2, ""⟩) []

/-! ### Theorems. First: the wrapper arithmetic agrees with the standard operations -/

theorem qadd_eq (a b : ℚ) : qadd a b = a + b := by
  have ha : ((a.den : Int)) ≠ 0 := Int.natCast_ne_zero.mpr a.den_nz
  have hb : ((b.den : Int)) ≠ 0 := Int.natCast_ne_zero.mpr b.den_nz
  rw [qadd, Rat.normalize_eq_mkRat, Rat.mkRat_eq_divInt, Int.natCast_mul,
    ← Rat.divInt_add_divInt a.num b.num ha hb, Rat.num_divInt_den, Rat.num_divInt_den]

theorem qsub_eq (a b : ℚ) : qsub a b = a - b := by
  have ha : ((a.den : Int)) ≠ 0 := Int.natCast_ne_zero.mpr a.den_nz
  have hb : ((b.den : Int)) ≠ 0 := Int.natCast_ne_zero.mpr b.den_nz
  rw [qsub, Rat.normalize_eq_mkRat, Rat.mkRat_eq_divInt, Int.natCast_mul,
    ← Rat.divInt_sub_divInt a.num b.num ha hb, Rat.num_divInt_den, Rat.num_divInt_den]

theorem qmul_eq (a b : ℚ) : qmul a b = a * b := by
  have ha : ((a.den : Int)) ≠ 0 := Int.natCast_ne_zero.mpr a.den_nz
  have hb : ((b.den : Int)) ≠ 0 := Int.natCast_ne_zero.mpr b.den_nz
  rw [qmul, Rat.normalize_eq_mkRat, Rat.mkRat_eq_divInt, Int.natCast_mul,
    ← Rat.divInt_mul_divInt a.num b.num ha hb, Rat.num_divInt_den, Rat.num_divInt_den]

theorem qdiv_eq (a b : ℚ) : qdiv a b = a / b := by
  rw [qdiv, ← Rat.div_def']

theorem qblt_iff (a b : ℚ) : qblt a b = true ↔ a < b := by
  have ha : (0 : Int) < (a.den : Int) := Int.natCast_pos.mpr a.pos
  have hb : (0 : Int) < (b.den : Int) := Int.natCast_pos.mpr b.pos
  have hle : b ≤ a ↔ b.num * (a.den : Int) ≤ a.num * (b.den : Int) := by
    conv_lhs => rw [← Rat.num_divInt_den b, ← Rat.num_divInt_den a]
    exact Rat.divInt_le_divInt hb ha
  rw [qblt, decide_eq_true_eq, ← not_le, ← hle, not_le]

theorem qblt_eq_false_iff (a b : ℚ) : qblt a b = false ↔ b ≤ a := by
  rw [← not_lt, ← qblt_iff, Bool.not_eq_true]

theorem qsum_eq : ∀ l : List ℚ, qsum l = l.sum
  | [] => rfl
  | x :: xs => by rw [qsum, qadd_eq, qsum_eq xs, List.sum_cons]

/-! ### Basic lemmas about the tree model -/

@[simp] theorem duration_mk (d c : ℚ) (i : Option CmakeTraceInfo) (s : List CmakeTrace) :
    (CmakeTrace.mk d c i s).duration = d := rfl

@[simp] theorem creation_mk (d c : ℚ) (i : Option CmakeTraceInfo) (s : List CmakeTrace) :
    (CmakeTrace.mk d c i s).creation_duration = c := rfl

@[simp] theorem info_mk (d c : ℚ) (i : Option CmakeTraceInfo) (s : List CmakeTrace) :
    (CmakeTrace.mk d c i s).trace_info = i := rfl

@[simp] theorem subtraces_mk (d c : ℚ) (i : Option CmakeTraceInfo) (s : List CmakeTrace) :
    (CmakeTrace.mk d c i s).subtraces = s := rfl

theorem sumDurations_append_single (l : List CmakeTrace) (x : CmakeTrace) :
    sumDurations (l ++ [x]) = sumDurations l + x.duration := by
  induction l with
  | nil => simp [sumDurations, qadd_eq]
  | cons t ts ih => simp [sumDurations, qadd_eq, ih]; ring

theorem sumDurations_set (dur : ℚ) :
    ∀ (l : List CmakeTrace) (k : Nat) (c c2 : CmakeTrace), l[k]? = some c →
      c2.duration = c.duration + dur →
      sumDurations (l.set k c2) = sumDurations l + dur
  | [], k, c, c2, h, _ => by simp at h
  | t :: ts, 0, c, c2, h, h2 => by
    simp at h
    subst h
    simp [sumDurations, qadd_eq, h2]
    ring
  | t :: ts, k + 1, c, c2, h, h2 => by
    simp only [List.getElem?_cons_succ] at h
    simp only [List.set_cons_succ, sumDurations, qadd_eq,
      sumDurations_set dur ts k c c2 h h2]
    ring

theorem countNodesList_append_single (l : List CmakeTrace) (x : CmakeTrace) :
    countNodesList (l ++ [x]) = countNodesList l + countNodes x := by
  induction l with
  | nil => simp [countNodesList]
  | cons t ts ih => simp [countNodesList, ih]; omega

theorem countNodesList_set :
    ∀ (l : List CmakeTrace) (k : Nat) (c c2 : CmakeTrace), l[k]? = some c →
      countNodes c2 = countNodes c + 1 →
      countNodesList (l.set k c2) = countNodesList l + 1
  | [], k, c, c2, h, _ => by simp at h
  | t :: ts, 0, c, c2, h, h2 => by
    simp at h
    subst h
    simp [countNodesList, h2]
    omega
  | t :: ts, k + 1, c, c2, h, h2 => by
    simp only [List.getElem?_cons_succ] at h
    simp only [List.set_cons_succ, countNodesList, countNodesList_set ts k c c2 h h2]
    omega

theorem durationExactList_iff (l : List CmakeTrace) :
    durationExactList l = true ↔ ∀ t ∈ l, durationExact t = true := by
  induction l with
  | nil => simp [durationExactList]
  | cons t ts ih => simp [durationExactList, ih]

theorem creationNonnegList_iff (l : List CmakeTrace) :
    creationNonnegList l = true ↔ ∀ t ∈ l, creationNonneg t = true := by
  induction l with
  | nil => simp [creationNonnegList]
  | cons t ts ih => simp [creationNonnegList, ih]

theorem durationGeChildrenList_iff (l : List CmakeTrace) :
    durationGeChildrenList l = true ↔ ∀ t ∈ l, durationGeChildren t = true := by
  induction l with
  | nil => simp [durationGeChildrenList]
  | cons t ts ih => simp [durationGeChildrenList, ih]

theorem subInfoSomeList_iff (l : List CmakeTrace) :
    subInfoSomeList l = true ↔
      ∀ t ∈ l, t.trace_info.isSome = true ∧ subInfoSome t = true := by
  induction l with
  | nil => simp [subInfoSomeList]
  | cons t ts ih => simp [subInfoSomeList, ih]

theorem getAt_append :
    ∀ (p q : List Nat) (t : CmakeTrace),
      getAt t (p ++ q) = (getAt t p).bind (fun s => getAt s q)
  | [], q, t => by simp [getAt]
  | k :: p, q, t => by
    cases t with
    | mk d c i subs =>
      simp only [List.cons_append, getAt, subtraces_mk]
      cases subs[k]? with
      | none => simp
      | some child => simp [getAt_append p q child]

theorem getAt_isSome_take (t : CmakeTrace) (p : List Nat) (n : Nat)
    (h : (getAt t p).isSome = true) : (getAt t (p.take n)).isSome = true := by
  have := getAt_append (p.take n) (p.drop n) t
  rw [List.take_append_drop] at this
  rw [this] at h
  cases hg : getAt t (p.take n) with
  | none => rw [hg] at h; simp at h
  | some s => simp

/-! ### Lemmas about `attachAt` -/

theorem attachAt_shape :
    ∀ (p : List Nat) (t : CmakeTrace) (dur : ℚ) (ti : CmakeTraceInfo) (t2 : CmakeTrace),
      attachAt t p dur ti = some t2 →
      t2.duration = qadd t.duration dur ∧
      t2.creation_duration = t.creation_duration ∧
      t2.trace_info = t.trace_info ∧
      countNodes t2 = countNodes t + 1
  | [], .mk d c i subs, dur, ti, t2, h => by
    simp only [attachAt, Option.some_inj] at h
    subst h
    refine ⟨rfl, rfl, rfl, ?_⟩
    simp only [countNodes, countNodesList_append_single, countNodesList]
    omega
  | k :: p, .mk d c i subs, dur, ti, t2, h => by
    simp only [attachAt] at h
    cases hg : subs[k]? with
    | none => simp only [hg] at h; exact Option.noConfusion h
    | some child =>
      simp only [hg] at h
      cases ha : attachAt child p dur ti with
      | none => simp only [ha] at h; exact Option.noConfusion h
      | some child2 =>
        simp only [ha, Option.some_inj] at h
        subst h
        obtain ⟨h1, _, _, h4⟩ := attachAt_shape p child dur ti child2 ha
        refine ⟨rfl, rfl, rfl, ?_⟩
        simp only [countNodes, countNodesList_set subs k child child2 hg h4]
        omega

theorem attachAt_len_nil (t : CmakeTrace) (dur : ℚ) (ti : CmakeTraceInfo)
    (t2 : CmakeTrace) (h : attachAt t [] dur ti = some t2) :
    t2.subtraces.length = t.subtraces.length + 1 := by
  cases t with
  | mk d c i subs =>
    simp only [attachAt, Option.some_inj] at h
    subst h
    simp

theorem attachAt_len_cons (t : CmakeTrace) (k : Nat) (p : List Nat) (dur : ℚ)
    (ti : CmakeTraceInfo) (t2 : CmakeTrace) (h : attachAt t (k :: p) dur ti = some t2) :
    t2.subtraces.length = t.subtraces.length := by
  cases t with
  | mk d c i subs =>
    simp only [attachAt] at h
    cases hg : subs[k]? with
    | none => simp only [hg] at h; exact Option.noConfusion h
    | some child =>
      simp only [hg] at h
      cases ha : attachAt child p dur ti with
      | none => simp only [ha] at h; exact Option.noConfusion h
      | some child2 =>
        simp only [ha, Option.some_inj] at h
        subst h
        simp

theorem attachAt_isSome :
    ∀ (p : List Nat) (t : CmakeTrace) (dur : ℚ) (ti : CmakeTraceInfo),
      (getAt t p).isSome = true → (attachAt t p dur ti).isSome = true
  | [], .mk d c i subs, dur, ti, _ => by simp [attachAt]
  | k :: p, .mk d c i subs, dur, ti, h => by
    simp only [getAt, subtraces_mk] at h
    cases hg : subs[k]? with
    | none => simp only [hg] at h; simp at h
    | some child =>
      simp only [hg] at h
      have := attachAt_isSome p child dur ti h
      simp only [attachAt, hg]
      cases ha : attachAt child p dur ti with
      | none => rw [ha] at this; simp at this
      | some child2 => simp

theorem attachAt_preserves :
    ∀ (p : List Nat) (t : CmakeTrace) (dur : ℚ) (ti : CmakeTraceInfo) (t2 : CmakeTrace),
      attachAt t p dur ti = some t2 → 0 ≤ dur →
      (durationExact t = true → durationExact t2 = true) ∧
      (creationNonneg t = true → creationNonneg t2 = true) ∧
      (subInfoSome t = true → subInfoSome t2 = true)
  | [], .mk d c i subs, dur, ti, t2, h, hdur => by
    simp only [attachAt, Option.some_inj] at h
    subst h
    refine ⟨?_, ?_, ?_⟩
    · intro he
      simp only [durationExact, Bool.and_eq_true, decide_eq_true_eq,
        durationExactList_iff] at he ⊢
      obtain ⟨he1, he2⟩ := he
      constructor
      · rw [sumDurations_append_single, qadd_eq, qadd_eq] at *
        rw [he1]
        simp only [duration_mk]
        ring
      · intro x hx
        rcases List.mem_append.mp hx with hx | hx
        · exact he2 x hx
        · simp only [List.mem_singleton] at hx
          subst hx
          simp [durationExact, durationExactList, sumDurations, qadd_eq]
    · intro hc
      simp only [creationNonneg, Bool.and_eq_true, Bool.not_eq_true',
        creationNonnegList_iff] at hc ⊢
      obtain ⟨hc1, hc2⟩ := hc
      refine ⟨hc1, ?_⟩
      intro x hx
      rcases List.mem_append.mp hx with hx | hx
      · exact hc2 x hx
      · simp only [List.mem_singleton] at hx
        subst hx
        simp only [creationNonneg, creationNonnegList, Bool.and_eq_true,
          Bool.not_eq_true', creation_mk]
        exact ⟨(qblt_eq_false_iff dur 0).mpr hdur, trivial⟩
    · intro hs
      simp only [subInfoSome, subInfoSomeList_iff] at hs ⊢
      intro x hx
      rcases List.mem_append.mp hx with hx | hx
      · exact hs x hx
      · simp only [List.mem_singleton] at hx
        subst hx
        exact ⟨rfl, rfl⟩
  | k :: p, .mk d c i subs, dur, ti, t2, h, hdur => by
    simp only [attachAt] at h
    cases hg : subs[k]? with
    | none => simp only [hg] at h; exact Option.noConfusion h
    | some child =>
      simp only [hg] at h
      cases ha : attachAt child p dur ti with
      | none => simp only [ha] at h; exact Option.noConfusion h
      | some child2 =>
        simp only [ha, Option.some_inj] at h
        subst h
        obtain ⟨hdur2, hcre2, hinf2, _⟩ := attachAt_shape p child dur ti child2 ha
        obtain ⟨pe, pc, ps⟩ := attachAt_preserves p child dur ti child2 ha hdur
        have hmem : child ∈ subs := List.getElem?_mem hg
        have hset : ∀ x ∈ subs.set k child2, x ∈ subs ∨ x = child2 :=
          fun x hx => List.mem_or_eq_of_mem_set hx
        refine ⟨?_, ?_, ?_⟩
        · intro he
          simp only [durationExact, Bool.and_eq_true, decide_eq_true_eq,
            durationExactList_iff] at he ⊢
          obtain ⟨he1, he2⟩ := he
          constructor
          · have hsum := sumDurations_set dur subs k child child2 hg
              (by rw [hdur2, qadd_eq])
            rw [hsum, qadd_eq, qadd_eq] at *
            rw [he1]
            ring
          · intro x hx
            rcases hset x hx with hx2 | hx2
            · exact he2 x hx2
            · subst hx2
              exact pe (he2 child hmem)
        · intro hc
          simp only [creationNonneg, Bool.and_eq_true, Bool.not_eq_true',
            creationNonnegList_iff] at hc ⊢
          obtain ⟨hc1, hc2⟩ := hc
          refine ⟨hc1, ?_⟩
          intro x hx
          rcases hset x hx with hx2 | hx2
          · exact hc2 x hx2
          · subst hx2
            exact pc (hc2 child hmem)
        · intro hs
          simp only [subInfoSome, subInfoSomeList_iff] at hs ⊢
          intro x hx
          rcases hset x hx with hx2 | hx2
          · exact hs x hx2
          · subst hx2
            obtain ⟨hi, hsub⟩ := hs child hmem
            exact ⟨by rw [hinf2]; exact hi, ps hsub⟩

theorem attachAt_getAt :
    ∀ (p : List Nat) (t : CmakeTrace) (dur : ℚ) (ti : CmakeTraceInfo) (t2 : CmakeTrace),
      attachAt t p dur ti = some t2 →
      ∀ q, (getAt t q).isSome = true → (getAt t2 q).isSome = true
  | [], .mk d c i subs, dur, ti, t2, h, q, hq => by
    simp only [attachAt, Option.some_inj] at h
    subst h
    cases q with
    | nil => simp [getAt]
    | cons j q =>
      simp only [getAt, subtraces_mk] at hq ⊢
      cases hg : subs[j]? with
      | none => simp only [hg] at hq; simp at hq
      | some s =>
        simp only [hg] at hq
        have hj : j < subs.length := by
          rcases List.getElem?_eq_some.mp hg with ⟨hlt, _⟩
          exact hlt
        rw [List.getElem?_append, if_pos hj, hg]
        exact hq
  | k :: p, .mk d c i subs, dur, ti, t2, h, q, hq => by
    simp only [attachAt] at h
    cases hg : subs[k]? with
    | none => simp only [hg] at h; exact Option.noConfusion h
    | some child =>
      simp only [hg] at h
      cases ha : attachAt child p dur ti with
      | none => simp only [ha] at h; exact Option.noConfusion h
      | some child2 =>
        simp only [ha, Option.some_inj] at h
        subst h
        cases q with
        | nil => simp [getAt]
        | cons j q =>
          simp only [getAt, subtraces_mk] at hq ⊢
          cases hgj : subs[j]? with
          | none => simp only [hgj] at hq; simp at hq
          | some s =>
            simp only [hgj] at hq
            by_cases hjk : j = k
            · subst hjk
              have hj : j < subs.length := by
                rcases List.getElem?_eq_some.mp hgj with ⟨hlt, _⟩
                exact hlt
              have hchild : s = child := by
                rw [hg] at hgj
                exact (Option.some_inj.mp hgj).symm
              rw [hchild] at hq
              rw [List.getElem?_set_self hj]
              exact attachAt_getAt p child dur ti child2 ha q hq
            · rw [List.getElem?_set_ne (Ne.symm hjk), hgj]
              exact hq

/-! ### Lemmas about `attachRecord` and `update_traces` -/

theorem clampedDuration_nonneg (ct pt : ℚ) : 0 ≤ clampedDuration ct pt := by
  rw [clampedDuration]
  cases hb : qblt (qsub ct pt) 0 with
  | true => simp
  | false =>
    simp only [Bool.false_eq_true, if_false]
    exact (qblt_eq_false_iff _ _).mp hb

theorem getAt_info_some :
    ∀ (p : List Nat) (t : CmakeTrace) (k : Nat) (s : CmakeTrace),
      subInfoSome t = true → getAt t (k :: p) = some s → s.trace_info.isSome = true
  | [], .mk d c i subs, k, s, hsub, hget => by
    simp only [getAt, subtraces_mk] at hget
    cases hg : subs[k]? with
    | none => simp only [hg] at hget; exact Option.noConfusion hget
    | some child =>
      simp only [hg, getAt, Option.some_inj] at hget
      subst hget
      simp only [subInfoSome] at hsub
      exact ((subInfoSomeList_iff subs).mp hsub child (List.getElem?_mem hg)).1
  | j :: p, .mk d c i subs, k, s, hsub, hget => by
    simp only [getAt, subtraces_mk] at hget
    cases hg : subs[k]? with
    | none => simp only [hg] at hget; exact Option.noConfusion hget
    | some child =>
      simp only [hg] at hget
      simp only [subInfoSome] at hsub
      exact getAt_info_some p child j s
        ((subInfoSomeList_iff subs).mp hsub child (List.getElem?_mem hg)).2 hget

theorem attachRecord_ok_spec (st : BuildState) (pp : List Nat) (dur : ℚ)
    (ti : CmakeTraceInfo) (st2 : BuildState)
    (h : attachRecord st pp dur ti = .ok st2) (hdur : 0 ≤ dur) (hwf : WF st) :
    WF st2 ∧ st2.root.duration = qadd st.root.duration dur ∧
      countNodes st2.root = countNodes st.root + 1 ∧ st2.path = pp := by
  obtain ⟨hex, hnn, hcr, hin, hsub, hpath, htr⟩ := hwf
  rw [attachRecord] at h
  cases hat : attachAt st.root pp dur ti with
  | none => simp only [hat] at h; exact Except.noConfusion h
  | some root2 =>
    simp only [hat] at h
    cases hga : getAt root2 pp with
    | none => simp only [hga] at h; exact Except.noConfusion h
    | some ptarget =>
      simp only [hga] at h
      injection h with h2
      subst h2
      obtain ⟨hd, hc, hi, hcount⟩ := attachAt_shape pp st.root dur ti root2 hat
      obtain ⟨pe, pc, ps⟩ := attachAt_preserves pp st.root dur ti root2 hat hdur
      refine ⟨⟨pe hex, pc hnn, by rw [hc]; exact hcr, by rw [hi]; exact hin, ps hsub,
        by simp [hga], ?_⟩, hd, hcount, rfl⟩
      cases pp with
      | nil =>
        have hpt : ptarget = root2 := by
          simp only [getAt, Option.some_inj] at hga
          exact hga.symm
        have hnone : ptarget.trace_info.isNone = true := by
          rw [hpt, hi, hin]
          rfl
        simp only [hnone, if_true, htr]
        have hlen := attachAt_len_nil st.root dur ti root2 hat
        rw [hpt, hlen, List.range_succ, List.map_append, List.map_cons, List.map_nil]
        simp
      | cons k pp2 =>
        have hsome : ptarget.trace_info.isSome = true :=
          getAt_info_some pp2 root2 k ptarget (ps hsub) hga
        have hnone : ptarget.trace_info.isNone = false := by
          cases hinfo : ptarget.trace_info with
          | none => rw [hinfo] at hsome; exact Bool.noConfusion hsome
          | some x => rfl
        simp only [hnone, Bool.false_eq_true, if_false, htr]
        have hlen := attachAt_len_cons st.root k pp2 dur ti root2 hat
        rw [hlen]

theorem attachRecord_isOk (st : BuildState) (pp : List Nat) (dur : ℚ)
    (ti : CmakeTraceInfo) (hvalid : (getAt st.root pp).isSome = true) :
    ∃ st2, attachRecord st pp dur ti = .ok st2 := by
  have h1 := attachAt_isSome pp st.root dur ti hvalid
  cases hat : attachAt st.root pp dur ti with
  | none => rw [hat] at h1; exact Bool.noConfusion h1
  | some root2 =>
    have h2 := attachAt_getAt pp st.root dur ti root2 hat pp hvalid
    cases hga : getAt root2 pp with
    | none => rw [hga] at h2; exact Bool.noConfusion h2
    | some ptarget =>
      refine ⟨⟨root2, pp,
        if ptarget.trace_info.isNone then st.traces ++ [pp ++ [ptarget.subtraces.length - 1]]
        else st.traces⟩, ?_⟩
      rw [attachRecord]
      simp only [hat, hga]

theorem update_traces_ok (st : BuildState) (ct pt : ℚ) (cn pn : Int)
    (ti : CmakeTraceInfo) (st2 : BuildState)
    (h : update_traces st ct pt cn pn ti = .ok st2) (hwf : WF st) :
    WF st2 ∧ st2.root.duration = qadd st.root.duration (clampedDuration ct pt) ∧
      countNodes st2.root = countNodes st.root + 1 := by
  have hdur := clampedDuration_nonneg ct pt
  simp only [update_traces] at h
  repeat' split at h
  all_goals try exact Except.noConfusion h
  all_goals
    exact ⟨(attachRecord_ok_spec _ _ _ _ _ h hdur hwf).1,
      (attachRecord_ok_spec _ _ _ _ _ h hdur hwf).2.1,
      (attachRecord_ok_spec _ _ _ _ _ h hdur hwf).2.2.1⟩

theorem getAt_single_last (s : CmakeTrace) (hne : s.subtraces.isEmpty = false) :
    (getAt s [s.subtraces.length - 1]).isSome = true := by
  have hlen : 0 < s.subtraces.length :=
    List.length_pos.mpr (List.isEmpty_eq_false.mp hne)
  cases s with
  | mk d c i subs =>
    simp only [subtraces_mk] at hlen ⊢
    simp only [getAt, subtraces_mk]
    rw [List.getElem?_eq_getElem (by omega : subs.length - 1 < subs.length)]
    simp [getAt]

theorem getAt_append_last (t : CmakeTrace) (p : List Nat) (s : CmakeTrace)
    (h : getAt t p = some s) (hne : s.subtraces.isEmpty = false) :
    (getAt t (p ++ [s.subtraces.length - 1])).isSome = true := by
  rw [getAt_append, h]
  exact getAt_single_last s hne

theorem framesStart_valid (st : BuildState) (hwf : WF st) :
    (getAt st.root (framesStart st)).isSome = true := by
  obtain ⟨_, _, _, _, _, hpath, _⟩ := hwf
  rw [framesStart]
  cases hg : getAt st.root st.path with
  | none => rw [hg] at hpath; exact Bool.noConfusion hpath
  | some t =>
    simp only [hg]
    split
    · exact hpath
    · rename_i hne
      exact getAt_append_last st.root st.path t hg (by simpa using hne)

theorem framePaths_take (q0 : List Nat) (x : List Nat) (hx : x ∈ framePaths q0) :
    ∃ n, x = q0.take n := by
  rw [framePaths] at hx
  rcases List.mem_map.mp hx with ⟨n, _, hn⟩
  exact ⟨n, hn.symm⟩

theorem heuristic_loop_target :
    ∀ (frames : List (List Nat × Option CmakeTraceInfo)) (prev : CmakeTraceInfo)
      (bd : Nat) (bt : Option (List Nat)) (q : List Nat),
      (heuristic_loop prev frames (bd, bt)).2 = some q →
      (∃ f ∈ frames, q = f.1 ∨ q = f.1.dropLast) ∨ bt = some q
  | [], _, _, _, _, h => Or.inr h
  | (fq, oinfo) :: rest, prev, bd, bt, q, h => by
    simp only [heuristic_loop] at h
    have lift : ∀ (bd2 : Nat) (bt2 : Option (List Nat)),
        (heuristic_loop prev rest (bd2, bt2)).2 = some q →
        bt2 = bt ∨ bt2 = some fq ∨ bt2 = some fq.dropLast →
        (∃ f ∈ (fq, oinfo) :: rest, q = f.1 ∨ q = f.1.dropLast) ∨ bt = some q := by
      intro bd2 bt2 hrec hcases
      rcases heuristic_loop_target rest prev bd2 bt2 q hrec with ⟨f, hfmem, hfq⟩ | hbt
      · exact Or.inl ⟨f, List.mem_cons_of_mem _ hfmem, hfq⟩
      · rcases hcases with hc | hc | hc
        · rw [hc] at hbt
          exact Or.inr hbt
        · rw [hc] at hbt
          injection hbt with hq
          exact Or.inl ⟨(fq, oinfo), List.mem_cons_self _ _, Or.inl hq.symm⟩
        · rw [hc] at hbt
          injection hbt with hq
          exact Or.inl ⟨(fq, oinfo), List.mem_cons_self _ _, Or.inr hq.symm⟩
    repeat' split at h
    all_goals
      first
      | exact lift _ _ h (Or.inl rfl)
      | exact lift _ _ h (Or.inr (Or.inl rfl))
      | exact lift _ _ h (Or.inr (Or.inr rfl))

theorem heuristic_target_valid (st : BuildState) (prev : CmakeTraceInfo)
    (hwf : WF st) (q : List Nat)
    (hq : (heuristic_loop prev (framesOf st) (maxint, none)).2 = some q) :
    (getAt st.root q).isSome = true := by
  have hstart := framesStart_valid st hwf
  rcases heuristic_loop_target (framesOf st) prev maxint none q hq with ⟨f, hfmem, hfq⟩ | hbt
  · have hf1 : ∃ n, f.1 = (framesStart st).take n := by
      rw [framesOf] at hfmem
      rcases List.mem_map.mp hfmem with ⟨qq, hqqmem, hqqeq⟩
      rcases framePaths_take (framesStart st) qq hqqmem with ⟨n, hn⟩
      exact ⟨n, by rw [← hqqeq, hn]⟩
    rcases hf1 with ⟨n, hn⟩
    rcases hfq with hfq | hfq
    · rw [hfq, hn]
      exact getAt_isSome_take _ _ _ hstart
    · rw [hfq, hn, List.dropLast_eq_take, List.take_take]
      exact getAt_isSome_take _ _ _ hstart
  · exact Option.noConfusion hbt

theorem update_traces_heuristic_ok (st : BuildState) (ct pt : ℚ) (pn : Int)
    (ti : CmakeTraceInfo) (hwf : WF st) :
    ∃ st2, update_traces st ct pt 0 pn ti = .ok st2 := by
  have hpath : (getAt st.root st.path).isSome = true := hwf.2.2.2.2.2.1
  rw [update_traces]
  simp only [if_pos rfl]
  cases hins : (heuristic_loop ti (framesOf st) (maxint, none)).2 with
  | none =>
    simp only [hins]
    exact attachRecord_isOk st st.path _ ti hpath
  | some q =>
    simp only [hins]
    exact attachRecord_isOk st q _ ti (heuristic_target_valid st ti hwf q hins)

theorem update_traces_diag_ok (st : BuildState) (ct pt : ℚ) (pn : Int)
    (ti : CmakeTraceInfo) (hwf : WF st) :
    ∃ st2, update_traces st ct pt pn pn ti = .ok st2 := by
  have hpath : (getAt st.root st.path).isSome = true := hwf.2.2.2.2.2.1
  by_cases h0 : pn = 0
  · subst h0
    exact update_traces_heuristic_ok st ct pt 0 ti hwf
  · rw [update_traces]
    simp only [if_neg h0, Int.sub_self, if_pos rfl]
    exact attachRecord_isOk st st.path _ ti hpath

/-- Exact characterization of when a single `_update_traces` step with known
nesting aborts: a depth jump of more than one, a descent ascending past the
sentinel root, or a depth increase by one while the active parent has no
children yet (the IndexError case). -/
theorem update_traces_abort_iff (st : BuildState) (ct pt : ℚ) (cn pn : Int)
    (ti : CmakeTraceInfo) (hwf : WF st) (hcn : cn ≠ 0) :
    isOk (update_traces st ct pt cn pn ti) = false ↔
      1 < cn - pn ∨
      (cn - pn < 0 ∧ st.path.length < (pn - cn).toNat) ∨
      (cn - pn = 1 ∧ subtracesEmptyAt st = true) := by
  have hpath : (getAt st.root st.path).isSome = true := hwf.2.2.2.2.2.1
  rw [update_traces]
  simp only [if_neg hcn]
  by_cases h0 : cn - pn = 0
  · simp only [if_pos h0]
    obtain ⟨st2, hst2⟩ := attachRecord_isOk st st.path (clampedDuration ct pt) ti hpath
    rw [hst2]
    simp only [isOk, h0]
    constructor
    · intro hF
      exact Bool.noConfusion hF
    · rintro (h | ⟨h1, h2⟩ | ⟨h1, h2⟩) <;> omega
  · by_cases hneg : cn - pn < 0
    · simp only [if_neg h0, if_pos hneg]
      by_cases hle : (-(cn - pn)).toNat ≤ st.path.length
      · rw [if_pos hle]
        obtain ⟨st2, hst2⟩ := attachRecord_isOk st
          (st.path.take (st.path.length - (-(cn - pn)).toNat)) (clampedDuration ct pt) ti
          (getAt_isSome_take _ _ _ hpath)
        rw [hst2]
        simp only [isOk]
        constructor
        · intro hF
          exact Bool.noConfusion hF
        · rintro (h | ⟨h1, h2⟩ | ⟨h1, h2⟩) <;> omega
      · rw [if_neg hle]
        simp only [isOk]
        constructor
        · intro _
          exact Or.inr (Or.inl ⟨hneg, by omega⟩)
        · intro _
          trivial
    · by_cases h1 : cn - pn = 1
      · simp only [if_neg h0, if_neg hneg, if_pos h1]
        cases hg : getAt st.root st.path with
        | none => rw [hg] at hpath; exact Bool.noConfusion hpath
        | some t =>
          simp only [hg]
          split
          · rename_i he
            simp only [isOk]
            constructor
            · intro _
              refine Or.inr (Or.inr ⟨h1, ?_⟩)
              simp only [subtracesEmptyAt, hg]
              exact he
            · intro _
              trivial
          · rename_i he
            obtain ⟨st2, hst2⟩ := attachRecord_isOk st
              (st.path ++ [t.subtraces.length - 1]) (clampedDuration ct pt) ti
              (getAt_append_last st.root st.path t hg (by simpa using he))
            rw [hst2]
            simp only [isOk]
            constructor
            · intro hF
              exact Bool.noConfusion hF
            · rintro (h | ⟨ha, hb⟩ | ⟨ha, hb⟩)
              · omega
              · omega
              · simp only [subtracesEmptyAt, hg] at hb
                exact absurd hb he
      · simp only [if_neg h0, if_neg hneg, if_neg h1, isOk]
        constructor
        · intro _
          exact Or.inl (by omega)
        · intro _
          trivial

/-! ### Lemmas about `_collect_stats` -/

theorem loopDurations_nil (po : Option ℚ) : loopDurations po [] = [] := by
  cases po <;> rfl

theorem collect_loop_spec :
    ∀ (events : List Event) (ls ls2 : LoopState),
      collect_loop events ls = .ok ls2 → WF ls.bstate →
      WF ls2.bstate ∧
      ls2.bstate.root.duration =
        ls.bstate.root.duration + (loopDurations (ls.pending.map Prod.fst) events).sum ∧
      countNodes ls2.bstate.root =
        countNodes ls.bstate.root + (loopDurations (ls.pending.map Prod.fst) events).length ∧
      ls2.pending.isSome = (ls.pending.isSome || !events.isEmpty)
  | [], ls, ls2, h, hwf => by
    simp only [collect_loop] at h
    injection h with h2
    subst h2
    refine ⟨hwf, ?_, ?_, ?_⟩ <;> simp [loopDurations_nil]
  | e :: es, ls, ls2, h, hwf => by
    simp only [collect_loop] at h
    cases hp : ls.pending with
    | none =>
      simp only [hp] at h
      cases hn : e.nesting with
      | none =>
        simp only [hn] at h
        obtain ⟨hwf2, hdur2, hcount2, hpend2⟩ :=
          collect_loop_spec es ⟨0, 0, some (e.timeval, e.trace_info), ls.bstate⟩ ls2 h hwf
        refine ⟨hwf2, ?_, ?_, ?_⟩
        · simpa [hp, loopDurations] using hdur2
        · simpa [hp, loopDurations] using hcount2
        · simp only [hp, Option.isSome_none, Bool.false_or, List.isEmpty_cons,
            Bool.not_false]
          simp only [Option.isSome_some, Bool.true_or] at hpend2
          exact hpend2
      | some k =>
        simp only [hn] at h
        obtain ⟨hwf2, hdur2, hcount2, hpend2⟩ :=
          collect_loop_spec es
            ⟨k, k - ls.previous_nesting, some (e.timeval, e.trace_info), ls.bstate⟩ ls2 h hwf
        refine ⟨hwf2, ?_, ?_, ?_⟩
        · simpa [hp, loopDurations] using hdur2
        · simpa [hp, loopDurations] using hcount2
        · simp only [hp, Option.isSome_none, Bool.false_or, List.isEmpty_cons,
            Bool.not_false]
          simp only [Option.isSome_some, Bool.true_or] at hpend2
          exact hpend2
    | some pd =>
      simp only [hp] at h
      cases hu : update_traces ls.bstate e.timeval pd.1 ls.previous_nesting
          (ls.previous_nesting - ls.previous_nesting_diff) pd.2 with
      | error err =>
        simp only [hu] at h
        exact Except.noConfusion h
      | ok bst =>
        simp only [hu] at h
        obtain ⟨hwfb, hdurb, hcountb⟩ :=
          update_traces_ok ls.bstate e.timeval pd.1 ls.previous_nesting
            (ls.previous_nesting - ls.previous_nesting_diff) pd.2 bst hu hwf
        rw [qadd_eq] at hdurb
        have hfin : ∀ (pnn pdd : Int),
            collect_loop es ⟨pnn, pdd, some (e.timeval, e.trace_info), bst⟩ = .ok ls2 →
            WF ls2.bstate ∧
            ls2.bstate.root.duration =
              ls.bstate.root.duration +
                (loopDurations ((some pd).map Prod.fst) (e :: es)).sum ∧
            countNodes ls2.bstate.root =
              countNodes ls.bstate.root +
                (loopDurations ((some pd).map Prod.fst) (e :: es)).length ∧
            ls2.pending.isSome = ((some pd : Option (ℚ × CmakeTraceInfo)).isSome || !(e :: es).isEmpty) := by
          intro pnn pdd hrec
          obtain ⟨hwf2, hdur2, hcount2, hpend2⟩ :=
            collect_loop_spec es ⟨pnn, pdd, some (e.timeval, e.trace_info), bst⟩ ls2 hrec hwfb
          refine ⟨hwf2, ?_, ?_, ?_⟩
          · rw [hdur2, hdurb]
            simp only [Option.map_some', loopDurations, List.sum_cons]
            ring
          · rw [hcount2, hcountb]
            simp only [Option.map_some', loopDurations, List.length_cons]
            omega
          · simp only [Option.isSome_some, Bool.true_or]
            simp only [Option.isSome_some, Bool.true_or] at hpend2
            exact hpend2
        cases hn : e.nesting with
        | none =>
          simp only [hn] at h
          exact hfin 0 0 h
        | some k =>
          simp only [hn] at h
          exact hfin k (k - ls.previous_nesting) h

theorem collect_stats_spec (events : List Event) (st : BuildState)
    (h : collect_stats events = .ok st) :
    WF st ∧ st.root.duration = (attributedDurations events).sum ∧
      countNodes st.root = 1 + (attributedDurations events).length := by
  rw [collect_stats] at h
  cases hl : collect_loop events initLoopState with
  | error err => rw [hl] at h; exact Except.noConfusion h
  | ok ls =>
    rw [hl] at h
    obtain ⟨hwf, hdur, hcount, hpend⟩ :=
      collect_loop_spec events initLoopState ls hl (by decide)
    have hinitp : initLoopState.pending.map Prod.fst = none := rfl
    have hinitd : initLoopState.bstate.root.duration = 0 := rfl
    have hinitc : countNodes initLoopState.bstate.root = 1 := rfl
    rw [hinitp, hinitd] at hdur
    rw [hinitp, hinitc] at hcount
    simp only [collect_final] at h
    cases hp : ls.pending with
    | none =>
      simp only [hp] at h
      injection h with h2
      subst h2
      rw [hp] at hpend
      simp only [Option.isSome_none, Bool.false_eq] at hpend
      have hempty : events.isEmpty = true := by
        cases he : events.isEmpty with
        | true => rfl
        | false => rw [he] at hpend; simp at hpend
      obtain rfl : events = [] := List.isEmpty_iff.mp hempty
      refine ⟨hwf, ?_, ?_⟩
      · simpa [attributedDurations, loopDurations] using hdur
      · simpa [attributedDurations, loopDurations] using hcount
    | some pd =>
      simp only [hp] at h
      obtain ⟨hwf3, hdur3, hcount3⟩ :=
        update_traces_ok ls.bstate (qadd pd.1 smallestDuration) pd.1 ls.previous_nesting
          ls.previous_nesting pd.2 st h hwf
      have hclamp : clampedDuration (qadd pd.1 smallestDuration) pd.1 = smallestDuration := by
        rw [clampedDuration]
        have hq : qsub (qadd pd.1 smallestDuration) pd.1 = smallestDuration := by
          rw [qsub_eq, qadd_eq]
          ring
        rw [hq, if_neg]
        rw [qblt_iff]
        decide
      have hne : events.isEmpty = false := by
        rw [hp] at hpend
        have hinits : initLoopState.pending.isSome = false := rfl
        rw [hinits] at hpend
        simpa using hpend
      refine ⟨hwf3, ?_, ?_⟩
      · rw [hdur3, qadd_eq, hclamp, hdur, attributedDurations, hne]
        simp only [Bool.false_eq_true, if_false, List.sum_append, List.sum_cons,
          List.sum_nil]
        ring
      · rw [hcount3, hcount, attributedDurations, hne]
        simp only [Bool.false_eq_true, if_false, List.length_append, List.length_cons,
          List.length_nil]
        omega

/-! ### Lemmas about `_parse_cmake_log` -/

theorem parse_go_nesting :
    ∀ (lines : List LogLine) (ig : Bool) (cn : Option Int)
      (pending : Option (ℚ × CmakeTraceInfo)),
      ((parse_go ig lines cn pending).1).map (fun e => e.nesting) =
        (match pending with | some _ => [cn] | none => []) ++
          lines.filterMap (fun l =>
            match l with
            | .parsed _ fr _ _ code => some (if ig then cn else bumpNesting fr code)
            | .unmatched _ => none)
  | [], ig, cn, pending => by
    cases pending <;> simp [parse_go]
  | .unmatched text :: ls, ig, cn, pending => by
    cases pending with
    | none =>
      simp only [parse_go, List.filterMap_cons]
      exact parse_go_nesting ls ig cn none
    | some pd =>
      simp only [parse_go, List.filterMap_cons]
      cases hm : match_parens pd.2.cmake_code_line with
      | true =>
        simp only [hm, if_true]
        exact parse_go_nesting ls ig cn (some pd)
      | false =>
        simp only [hm, Bool.false_eq_true, if_false]
        exact parse_go_nesting ls ig cn
          (some (pd.1, ⟨pd.2.cmake_file, pd.2.cmake_line,
            pd.2.cmake_code_line ++ "\\n" ++ text⟩))
  | .parsed ts fr file ln code :: ls, ig, cn, pending => by
    cases ig with
    | false =>
      have ih := parse_go_nesting ls false (bumpNesting fr code)
        (some (ts, ⟨file, ln, code⟩))
      cases pending with
      | none => simp [parse_go, ih]
      | some pd => simp [parse_go, ih]
    | true =>
      have ih := parse_go_nesting ls true cn (some (ts, ⟨file, ln, code⟩))
      cases pending with
      | none => simp [parse_go, ih]
      | some pd => simp [parse_go, ih]

theorem parse_go_length :
    ∀ (lines : List LogLine) (ig : Bool) (cn : Option Int)
      (pending : Option (ℚ × CmakeTraceInfo)),
      (parse_go ig lines cn pending).1.length =
        numParsedLines lines + (if pending.isSome then 1 else 0)
  | [], ig, cn, pending => by
    cases pending <;> simp [parse_go, numParsedLines]
  | .unmatched text :: ls, ig, cn, pending => by
    have hnum : numParsedLines (.unmatched text :: ls) = numParsedLines ls := by
      simp [numParsedLines]
    cases pending with
    | none =>
      simp only [parse_go, hnum]
      exact parse_go_length ls ig cn none
    | some pd =>
      simp only [parse_go, hnum]
      cases hm : match_parens pd.2.cmake_code_line with
      | true =>
        simp only [hm, if_true]
        exact parse_go_length ls ig cn (some pd)
      | false =>
        simp only [hm, Bool.false_eq_true, if_false]
        exact parse_go_length ls ig cn
          (some (pd.1, ⟨pd.2.cmake_file, pd.2.cmake_line,
            pd.2.cmake_code_line ++ "\\n" ++ text⟩))
  | .parsed ts fr file ln code :: ls, ig, cn, pending => by
    have hnum : numParsedLines (.parsed ts fr file ln code :: ls) =
        numParsedLines ls + 1 := by
      simp [numParsedLines]
    cases ig with
    | false =>
      have ih := parse_go_length ls false (bumpNesting fr code)
        (some (ts, ⟨file, ln, code⟩))
      cases pending with
      | none => simp [parse_go, ih, hnum]
      | some pd => simp [parse_go, ih, hnum]
    | true =>
      have ih := parse_go_length ls true cn (some (ts, ⟨file, ln, code⟩))
      cases pending with
      | none => simp [parse_go, ih, hnum]
      | some pd => simp [parse_go, ih, hnum]

/-! ### Lemmas about the report renderer -/

theorem countNodes_decomp (t : CmakeTrace) :
    countNodes t = 1 + countNodesList t.subtraces := by
  cases t
  rfl

theorem countNodesList_insertByDuration :
    ∀ (x : CmakeTrace) (l : List CmakeTrace),
      countNodesList (insertByDuration x l) = countNodes x + countNodesList l
  | x, [] => by simp [insertByDuration, countNodesList]
  | x, y :: ys => by
    rw [insertByDuration]
    split
    · simp only [countNodesList, countNodesList_insertByDuration x ys]
      omega
    · simp only [countNodesList]

theorem countNodesList_sorted (l : List CmakeTrace) :
    countNodesList (sortedByDurationDesc l) = countNodesList l := by
  rw [sortedByDurationDesc]
  induction l with
  | nil => rfl
  | cons t ts ih =>
    simp only [List.foldr_cons, countNodesList_insertByDuration, countNodesList, ih]

/-- The fuel argument of `print_traces_loop` is irrelevant as soon as it
dominates twice the node count of the rendered forest. -/
theorem print_traces_loop_stable (args : ReportArgs) (whole : ℚ) :
    ∀ (f g : Nat) (flag : Bool) (l : List CmakeTrace) (ind : Nat),
      2 * countNodesList l + 1 + (if flag then 1 else 0) ≤ f →
      2 * countNodesList l + 1 + (if flag then 1 else 0) ≤ g →
      print_traces_loop args whole f flag l ind = print_traces_loop args whole g flag l ind
  | 0, g, flag, l, ind, hf, hg => by omega
  | f + 1, 0, flag, l, ind, hf, hg => by omega
  | f + 1, g + 1, true, l, ind, hf, hg => by
    simp only [print_traces_loop]
    have hc : countNodesList (if args.sort_traces then sortedByDurationDesc l else l) =
        countNodesList l := by
      split
      · exact countNodesList_sorted l
      · rfl
    exact print_traces_loop_stable args whole f g false _ ind
      (by rw [hc]; simp at hf ⊢; omega) (by rw [hc]; simp at hg ⊢; omega)
  | f + 1, g + 1, false, [], ind, hf, hg => by
    simp only [print_traces_loop]
  | f + 1, g + 1, false, t :: ts, ind, hf, hg => by
    simp only [print_traces_loop]
    by_cases h1 : args.depth ≠ 0 ∧ (ind : Int) + 1 > args.depth
    · rw [if_pos h1, if_pos h1]
    · rw [if_neg h1, if_neg h1]
      by_cases h2 : qblt (qdiv t.duration whole) args.threshold = true
      · rw [if_pos h2, if_pos h2]
      · rw [if_neg h2, if_neg h2]
        have hsplit : countNodesList (t :: ts) =
            1 + countNodesList t.subtraces + countNodesList ts := by
          simp only [countNodesList, countNodes_decomp]
        have e1 : print_traces_loop args whole f true t.subtraces (ind + 1) =
            print_traces_loop args whole g true t.subtraces (ind + 1) :=
          print_traces_loop_stable args whole f g true t.subtraces (ind + 1)
            (by simp at hf ⊢; omega) (by simp at hg ⊢; omega)
        have e2 : print_traces_loop args whole f false ts ind =
            print_traces_loop args whole g false ts ind :=
          print_traces_loop_stable args whole f g false ts ind
            (by simp at hf ⊢; omega) (by simp at hg ⊢; omega)
        rw [e1, e2]

/-- Rendering a sibling level stops at the first node failing the depth or
threshold check: nothing at that level is rendered from that node on. -/
theorem print_traces_loop_head_stop (args : ReportArgs) (whole : ℚ) (fuel : Nat)
    (t : CmakeTrace) (ts : List CmakeTrace) (indent : Nat)
    (h : (args.depth ≠ 0 ∧ (indent : Int) + 1 > args.depth) ∨
      qblt (qdiv t.duration whole) args.threshold = true) :
    print_traces_loop args whole (fuel + 1) false (t :: ts) indent = [] := by
  rcases h with h | h
  · simp only [print_traces_loop, if_pos h]
  · by_cases h1 : args.depth ≠ 0 ∧ (indent : Int) + 1 > args.depth
    · simp only [print_traces_loop, if_pos h1]
    · simp only [print_traces_loop, if_neg h1, h, if_true]

/-! ### The propagation equality implies the inequality -/

mutual

theorem durationGe_of_exact :
    ∀ (t : CmakeTrace), durationExact t = true → creationNonneg t = true →
      durationGeChildren t = true
  | .mk d c i subs => by
    intro he hn
    simp only [durationExact, Bool.and_eq_true, decide_eq_true_eq] at he
    simp only [creationNonneg, Bool.and_eq_true] at hn
    simp only [durationGeChildren, Bool.and_eq_true]
    refine ⟨?_, durationGeList_of_exact subs he.2 hn.2⟩
    have hc : 0 ≤ c := by
      have hx := hn.1
      cases hq : qblt c 0 with
      | false => exact (qblt_eq_false_iff c 0).mp hq
      | true => rw [hq] at hx; exact Bool.noConfusion hx
    cases hq : qblt d (sumDurations subs) with
    | false => simp
    | true =>
      exfalso
      have hlt := (qblt_iff _ _).mp hq
      rw [he.1, qadd_eq] at hlt
      linarith

theorem durationGeList_of_exact :
    ∀ (l : List CmakeTrace), durationExactList l = true → creationNonnegList l = true →
      durationGeChildrenList l = true
  | [] => by
    intro _ _
    rfl
  | t :: ts => by
    intro he hn
    simp only [durationExactList, Bool.and_eq_true] at he
    simp only [creationNonnegList, Bool.and_eq_true] at hn
    simp only [durationGeChildrenList, Bool.and_eq_true]
    exact ⟨durationGe_of_exact t he.1 hn.1, durationGeList_of_exact ts he.2 hn.2⟩

end

/-! ### The heuristic loop against the spec-worded resolver -/

theorem resolver_candidates_cons_none (prev : CmakeTraceInfo) (fq : List Nat)
    (rest : List (List Nat × Option CmakeTraceInfo)) :
    resolver_candidates prev ((fq, none) :: rest) = resolver_candidates prev rest := by
  simp [resolver_candidates]

theorem resolver_candidates_cons_nomatch (prev : CmakeTraceInfo) (fq : List Nat)
    (ti : CmakeTraceInfo) (rest : List (List Nat × Option CmakeTraceInfo))
    (h : ¬ ti.cmake_file = prev.cmake_file) :
    resolver_candidates prev ((fq, some ti) :: rest) = resolver_candidates prev rest := by
  simp [resolver_candidates, h]

theorem resolver_candidates_cons_match (prev : CmakeTraceInfo) (fq : List Nat)
    (ti : CmakeTraceInfo) (rest : List (List Nat × Option CmakeTraceInfo))
    (h : ti.cmake_file = prev.cmake_file) :
    resolver_candidates prev ((fq, some ti) :: rest) =
      ((ti.cmake_line - prev.cmake_line).natAbs, fq) :: resolver_candidates prev rest := by
  simp [resolver_candidates, h]

theorem listMinNat_mem : ∀ (l : List Nat) (m : Nat), listMinNat l = some m → m ∈ l
  | [], m, h => by simp [listMinNat] at h
  | x :: xs, m, h => by
    simp only [listMinNat] at h
    cases hm : listMinNat xs with
    | none =>
      rw [hm] at h
      injection h with h2
      subst h2
      exact List.mem_cons_self _ _
    | some m2 =>
      rw [hm] at h
      injection h with h2
      subst h2
      rcases le_total x m2 with hle | hle
      · rw [Nat.min_eq_left hle]
        exact List.mem_cons_self _ _
      · rw [Nat.min_eq_right hle]
        exact List.mem_cons_of_mem _ (listMinNat_mem xs m2 hm)

/-- Closed form of the insertion-point loop once a fallback or best target is
installed: the result improves on the running best distance exactly by the
minimum distance among the remaining file-sharing frames, held by the first
frame attaining it. -/
theorem heuristic_loop_some :
    ∀ (frames : List (List Nat × Option CmakeTraceInfo)) (prev : CmakeTraceInfo)
      (bd : Nat) (p : List Nat),
      heuristic_loop prev frames (bd, some p) =
        match listMinNat ((resolver_candidates prev frames).map Prod.fst) with
        | none => (bd, some p)
        | some m =>
          if m < bd then
            (m, ((resolver_candidates prev frames).find? (fun c => c.1 == m)).map
              (fun c => c.2.dropLast))
          else (bd, some p)
  | [], prev, bd, p => by simp [heuristic_loop, resolver_candidates, listMinNat]
  | (fq, oinfo) :: rest, prev, bd, p => by
    cases oinfo with
    | none =>
      rw [resolver_candidates_cons_none]
      simp only [heuristic_loop, Option.isNone_some, Bool.false_eq_true, if_false]
      exact heuristic_loop_some rest prev bd p
    | some ti =>
      by_cases hf : ti.cmake_file = prev.cmake_file
      · rw [resolver_candidates_cons_match prev fq ti rest hf]
        simp only [heuristic_loop, if_pos hf]
        by_cases hd : (ti.cmake_line - prev.cmake_line).natAbs < bd
        · rw [if_pos hd, heuristic_loop_some rest prev _ _]
          simp only [List.map_cons, listMinNat]
          cases hm : listMinNat ((resolver_candidates prev rest).map Prod.fst) with
          | none =>
            simp only [if_pos hd]
            rw [List.find?_cons_of_pos _ (by simp)]
            rfl
          | some m2 =>
            dsimp only
            by_cases hmd : m2 < (ti.cmake_line - prev.cmake_line).natAbs
            · rw [if_pos hmd, Nat.min_eq_right (by omega), if_pos (by omega),
                List.find?_cons_of_neg _ (by simp; omega)]
            · rw [if_neg hmd, Nat.min_eq_left (by omega), if_pos hd,
                List.find?_cons_of_pos _ (by simp)]
              rfl
        · rw [if_neg hd, heuristic_loop_some rest prev bd p]
          simp only [List.map_cons, listMinNat]
          cases hm : listMinNat ((resolver_candidates prev rest).map Prod.fst) with
          | none =>
            simp only [if_neg hd]
          | some m2 =>
            dsimp only
            by_cases hmb : m2 < bd
            · rw [if_pos hmb, Nat.min_eq_right (by omega), if_pos hmb,
                List.find?_cons_of_neg _ (by simp; omega)]
            · rw [if_neg hmb, if_neg (by omega)]
      · rw [resolver_candidates_cons_nomatch prev fq ti rest hf]
        simp only [heuristic_loop, if_neg hf, Option.isNone_some, Bool.false_eq_true,
          if_false]
        exact heuristic_loop_some rest prev bd p

/-- Provided every file-sharing frame lies at source-line distance below
`sys.maxint`, the insertion-point loop computes exactly the attachment point
described by the specification of the nesting resolver. -/
theorem heuristic_eq_resolver_spec (prev : CmakeTraceInfo)
    (frames : List (List Nat × Option CmakeTraceInfo))
    (hbound : ∀ c ∈ resolver_candidates prev frames, c.1 < maxint) :
    (heuristic_loop prev frames (maxint, none)).2 = resolver_spec prev frames := by
  cases frames with
  | nil => rfl
  | cons f0 rest =>
    obtain ⟨fq, oinfo⟩ := f0
    have fallback : ∀ (hcs : resolver_candidates prev ((fq, oinfo) :: rest) =
        resolver_candidates prev rest),
        (heuristic_loop prev rest (maxint, some fq)).2 =
          resolver_spec prev ((fq, oinfo) :: rest) := by
      intro hcs
      rw [heuristic_loop_some rest prev maxint fq, resolver_spec, hcs]
      cases hm : listMinNat ((resolver_candidates prev rest).map Prod.fst) with
      | none => rfl
      | some m2 =>
        dsimp only
        have hmlt : m2 < maxint := by
          have hmem := listMinNat_mem _ _ hm
          rcases List.mem_map.mp hmem with ⟨c, hcmem, hceq⟩
          have hb := hbound c (by rw [hcs]; exact hcmem)
          omega
        rw [if_pos hmlt]
    cases oinfo with
    | none =>
      simp only [heuristic_loop, Option.isNone_none, if_true]
      exact fallback (resolver_candidates_cons_none prev fq rest)
    | some ti =>
      by_cases hf : ti.cmake_file = prev.cmake_file
      · have hd0 : (ti.cmake_line - prev.cmake_line).natAbs < maxint := by
          refine hbound ((ti.cmake_line - prev.cmake_line).natAbs, fq) ?_
          rw [resolver_candidates_cons_match prev fq ti rest hf]
          exact List.mem_cons_self _ _
        simp only [heuristic_loop, if_pos hf, if_pos hd0]
        rw [heuristic_loop_some rest prev _ fq.dropLast, resolver_spec,
          resolver_candidates_cons_match prev fq ti rest hf]
        simp only [List.map_cons, listMinNat]
        cases hm : listMinNat ((resolver_candidates prev rest).map Prod.fst) with
        | none =>
          dsimp only
          rw [List.find?_cons_of_pos _ (by simp)]
          rfl
        | some m2 =>
          dsimp only
          by_cases hmd : m2 < (ti.cmake_line - prev.cmake_line).natAbs
          · rw [if_pos hmd, Nat.min_eq_right (by omega),
              List.find?_cons_of_neg _ (by simp; omega)]
          · rw [if_neg hmd, Nat.min_eq_left (by omega),
              List.find?_cons_of_pos _ (by simp)]
            rfl
      · simp only [heuristic_loop, if_neg hf, Option.isNone_none, if_true]
        exact fallback (resolver_candidates_cons_nomatch prev fq ti rest hf)

/-! ### Runs with no nesting information never abort -/

theorem loopDurations_some_length :
    ∀ (events : List Event) (pt : ℚ), (loopDurations (some pt) events).length = events.length
  | [], _ => rfl
  | e :: es, pt => by
    simp only [loopDurations, List.length_cons, loopDurations_some_length es e.timeval]

theorem attributedDurations_length (events : List Event) :
    (attributedDurations events).length = events.length := by
  cases events with
  | nil => rfl
  | cons e es =>
    simp only [attributedDurations, loopDurations, List.isEmpty_cons, Bool.false_eq_true,
      if_false, List.length_append, loopDurations_some_length, List.length_cons,
      List.length_nil]

theorem collect_loop_all_none :
    ∀ (events : List Event) (ls : LoopState),
      (∀ e ∈ events, e.nesting = none) → WF ls.bstate →
      (ls.pending.isSome = true → ls.previous_nesting = 0) →
      ∃ ls2, collect_loop events ls = .ok ls2
  | [], ls, _, _, _ => ⟨ls, rfl⟩
  | e :: es, ls, hall, hwf, hpn => by
    have he : e.nesting = none := hall e (List.mem_cons_self _ _)
    simp only [collect_loop]
    cases hp : ls.pending with
    | none =>
      dsimp only
      rw [he]
      exact collect_loop_all_none es ⟨0, 0, some (e.timeval, e.trace_info), ls.bstate⟩
        (fun x hx => hall x (List.mem_cons_of_mem _ hx)) hwf (fun _ => rfl)
    | some pd =>
      have hpn0 : ls.previous_nesting = 0 := hpn (by rw [hp]; rfl)
      obtain ⟨bst, hbst⟩ := update_traces_heuristic_ok ls.bstate e.timeval pd.1
        (ls.previous_nesting - ls.previous_nesting_diff) pd.2 hwf
      rw [hpn0] at hbst
      rw [hpn0]
      dsimp only
      rw [hbst]
      dsimp only
      rw [he]
      have hwfb : WF bst :=
        (update_traces_ok ls.bstate e.timeval pd.1 0
          (0 - ls.previous_nesting_diff) pd.2 bst hbst hwf).1
      exact collect_loop_all_none es ⟨0, 0, some (e.timeval, e.trace_info), bst⟩
        (fun x hx => hall x (List.mem_cons_of_mem _ hx)) hwfb (fun _ => rfl)

theorem collect_stats_all_none (events : List Event)
    (hall : ∀ e ∈ events, e.nesting = none) :
    ∃ st, collect_stats events = .ok st := by
  obtain ⟨ls, hls⟩ := collect_loop_all_none events initLoopState hall (by decide)
    (fun h => Bool.noConfusion h)
  rw [collect_stats, hls]
  obtain ⟨hwf, _, _, _⟩ := collect_loop_spec events initLoopState ls hls (by decide)
  simp only [collect_final]
  cases hp : ls.pending with
  | none => exact ⟨ls.bstate, rfl⟩
  | some pd =>
    exact update_traces_diag_ok ls.bstate (qadd pd.1 smallestDuration) pd.1
      ls.previous_nesting pd.2 hwf

theorem durationExact_head (t : CmakeTrace) (h : durationExact t = true) :
    t.duration = qadd t.creation_duration (sumDurations t.subtraces) := by
  cases t with
  | mk d c i subs =>
    simp only [durationExact, Bool.and_eq_true, decide_eq_true_eq] at h
    simpa using h.1

theorem bumpNesting_isSome (fr : Option Int) (code : String) :
    (bumpNesting fr code).isSome = fr.isSome := by
  cases fr <;> rfl

/-! ### The claims -/

/-- C1: Ancestor-propagation invariant.  Once the whole trace has been
consumed, the root of the forest satisfies the exact recursive equation
(every node's cumulative duration equals its own attributed creation
duration plus the sum of its direct children's cumulative durations), and at
every intermediate point of the collection loop every node's cumulative
duration is at least the sum of its children's cumulative durations. -/
theorem claim1 (events : List Event) (st : BuildState)
    (h : collect_stats events = .ok st) :
    durationExact st.root = true ∧
    ∀ (k : Nat) (ls : LoopState), collect_loop (events.take k) initLoopState = .ok ls →
      durationGeChildren ls.bstate.root = true := by
  refine ⟨(collect_stats_spec events st h).1.1, ?_⟩
  intro k ls hls
  have hwf := (collect_loop_spec (events.take k) initLoopState ls hls (by decide)).1
  exact durationGe_of_exact ls.bstate.root hwf.1 hwf.2.1

/-- Witness for C1: the concrete single-event run. -/
theorem claim1_witness :
    durationExact stSingle.root = true ∧ durationGeChildren initBuildState.root = true :=
  ⟨(claim1 eventsSingle stSingle rfl).1,
   (claim1 eventsSingle stSingle rfl).2 1
     ⟨1, 0, some ((0 : ℚ), ⟨"w.cmake", 1, "x()"⟩), initBuildState⟩ rfl⟩

/-- C2: Conservation of attributed time.  After the whole trace is consumed,
the sum of the cumulative durations of the top-level forest entries equals
the sum of all per-event attributed durations, and the recorded `traces`
paths are exactly the top-level entries (every created node lies under
exactly one of them). -/
theorem claim2 (events : List Event) (st : BuildState)
    (h : collect_stats events = .ok st) :
    sumDurations st.root.subtraces = qsum (attributedDurations events) ∧
    st.traces = (List.range st.root.subtraces.length).map (fun i => [i]) := by
  obtain ⟨hwf, hdur, _⟩ := collect_stats_spec events st h
  refine ⟨?_, hwf.2.2.2.2.2.2⟩
  have hex := durationExact_head st.root hwf.1
  rw [hwf.2.2.1, qadd_eq, zero_add] at hex
  rw [qsum_eq, ← hdur, hex]

/-- Witness for C2: the concrete single-event run. -/
theorem claim2_witness :
    sumDurations stSingle.root.subtraces = qsum (attributedDurations eventsSingle) ∧
    stSingle.traces = (List.range stSingle.root.subtraces.length).map (fun i => [i]) :=
  claim2 eventsSingle stSingle rfl

/-- C3: Node count.  For every input whose parse yields the event stream,
the forest produced by a successful collection has exactly one node per
line matching the trace-line grammar (continuations and ignored lines
produce none). -/
theorem claim3 (lines : List LogLine) (ig : Bool) (st : BuildState)
    (h : collect_stats (parse_cmake_log lines ig).1 = .ok st) :
    countNodesList st.root.subtraces = numParsedLines lines := by
  obtain ⟨hwf, hdur, hcount⟩ := collect_stats_spec _ _ h
  have hlen := attributedDurations_length (parse_cmake_log lines ig).1
  have hpl : (parse_cmake_log lines ig).1.length = numParsedLines lines := by
    rw [parse_cmake_log, parse_go_length]
    simp
  rw [countNodes_decomp] at hcount
  omega

/-- Witness for C3: the concrete four-line input. -/
theorem claim3_witness :
    countNodesList stMixed.root.subtraces = numParsedLines linesMixed :=
  claim3 linesMixed false stMixed rfl

/-- Counterexample for C4: when the previous call site lies at source-line
distance `sys.maxint` from a same-file frame, the code does not select that
frame (the strict `<` against the initial `sys.maxint` fails) while the
spec resolver does; the run on `eventsFar` actually attaches the third
event's node below the innermost frame at depth three instead of at the
top level chosen by the spec resolver. -/
theorem claim4_counterexample :
    resolver_spec prevFar framesFar = some [] ∧
    (heuristic_loop prevFar framesFar (maxint, none)).2 = some [0, 0] ∧
    (heuristic_loop prevFar framesFar (maxint, none)).2 ≠ resolver_spec prevFar framesFar ∧
    (collect_stats eventsFar).map (fun st => frameInfo st.root [0, 0, 0]) =
      .ok (some ⟨"fa", farLine, ""⟩) := by
  exact ⟨by decide, by decide, by decide, by rfl⟩

/-- C4 (amended): the heuristic resolver of `_update_traces` agrees with the
spec's innermost-outward nearest-line walk whenever every same-file
source-line distance is strictly below `sys.maxint`. -/
theorem claim4_amended (prev : CmakeTraceInfo)
    (frames : List (List Nat × Option CmakeTraceInfo))
    (hbound : ∀ c ∈ resolver_candidates prev frames, c.1 < maxint) :
    (heuristic_loop prev frames (maxint, none)).2 = resolver_spec prev frames :=
  heuristic_eq_resolver_spec prev frames hbound

/-- Witness for C4 (amended): the near call site on the `framesFar` chain. -/
theorem claim4_witness :
    (heuristic_loop prevNear framesFar (maxint, none)).2 =
      resolver_spec prevNear framesFar :=
  claim4_amended prevNear framesFar (by decide)

/-- Counterexample for C5: on depths `[1,2,1,2,3,2,1]` the node of the first
depth-1 event (the node at path `[0]`, carrying line 1) has exactly one
child, and that child is childless — so the depth-3 node is NOT a
grandchild of the first depth-1 node. -/
theorem claim5_counterexample :
    (collect_stats eventsDepths).map (fun st =>
      (getAt st.root [0]).map (fun t =>
        t.subtraces.map (fun c => (c.trace_info, c.subtraces.length)))) =
      .ok (some [(some ⟨"f", 2, ""⟩, 0)]) ∧
    (collect_stats eventsDepths).map (fun st => frameInfo st.root [0]) =
      .ok (some ⟨"f", 1, ""⟩) := by
  exact ⟨by rfl, by rfl⟩

/-- C5 (amended): on depths `[1,2,1,2,3,2,1]` the forest has two top-level
entries; the depth-3 event's node (line 5) is a grandchild of the SECOND
depth-1 event's node (line 3), through the line-4 node. -/
theorem claim5_amended :
    (collect_stats eventsDepths).map (fun st =>
      (st.root.subtraces.length, frameInfo st.root [0], frameInfo st.root [1],
        frameInfo st.root [1, 0], frameInfo st.root [1, 0, 0])) =
      .ok (2, some ⟨"f", 1, ""⟩, some ⟨"f", 3, ""⟩, some ⟨"f", 4, ""⟩,
        some ⟨"f", 5, ""⟩) := by
  rfl

/-- Counterexample for C6: the spec's keyword test (case-insensitive,
leading whitespace skipped) fires on `ELSE(x)` and on ` else(x)`, yet the
parser leaves the reported depth 3 unchanged on both; only the exact
lower-case anchored form `else(x)` is bumped to 4. -/
theorem claim6_counterexample :
    specElseKeyword "ELSE(x)" = true ∧
    ((parse_cmake_log [.parsed 0 (some 3) "f" 1 "ELSE(x)"] false).1).map
      (fun e => e.nesting) = [some 3] ∧
    specElseKeyword " else(x)" = true ∧
    ((parse_cmake_log [.parsed 0 (some 3) "f" 1 " else(x)"] false).1).map
      (fun e => e.nesting) = [some 3] ∧
    ((parse_cmake_log [.parsed 0 (some 3) "f" 1 "else(x)"] false).1).map
      (fun e => e.nesting) = [some 4] := by
  exact ⟨by decide, by decide, by decide, by decide, by decide⟩

/-- C6 (amended): for every parsed line the emitted nesting value is the
captured depth bumped by exactly the case-sensitive anchored regex
`^(else|elseif)\s*\(` (no leading whitespace skipped, no bump when the
depth field is absent or nesting is ignored); unmatched lines emit no
event. -/
theorem claim6_amended (lines : List LogLine) (ig : Bool) :
    ((parse_cmake_log lines ig).1).map (fun e => e.nesting) =
      lines.filterMap (fun l =>
        match l with
        | .parsed _ fr _ _ code => some (if ig then none else bumpNesting fr code)
        | .unmatched _ => none) := by
  rw [parse_cmake_log, parse_go_nesting]
  simp

/-- Counterexample for C7: in a stream whose first parsed line lacks the
depth field but whose second carries it, the second event still gets a
depth — the presence of depth information is re-decided on every line, not
once per stream. -/
theorem claim7_counterexample :
    firstParsedFrame linesLateFrame = some none ∧
    ((parse_cmake_log linesLateFrame false).1).map (fun e => e.nesting) =
      [none, some 1] ∧
    ¬ (∀ e ∈ (parse_cmake_log linesLateFrame false).1, e.nesting = none) := by
  exact ⟨by decide, by decide, by decide⟩

/-- C7 (amended): in ignore-nesting mode every event's depth is unknown;
otherwise each event's depth is present exactly when the depth field of its
own line is present (the decision is per line, not once per stream). -/
theorem claim7_amended :
    (∀ (lines : List LogLine), ∀ e ∈ (parse_cmake_log lines true).1,
      e.nesting = none) ∧
    (∀ (lines : List LogLine),
      ((parse_cmake_log lines false).1).map (fun e => e.nesting.isSome) =
        lines.filterMap (fun l =>
          match l with
          | .parsed _ fr _ _ _ => some fr.isSome
          | .unmatched _ => none)) := by
  constructor
  · intro lines e he
    have h : ((parse_cmake_log lines true).1).map (fun e => e.nesting) =
        lines.filterMap (fun l =>
          match l with
          | .parsed _ fr _ _ code =>
            some (if (true : Bool) = true then (none : Option Int)
              else bumpNesting fr code)
          | .unmatched _ => none) := by
      rw [parse_cmake_log, parse_go_nesting]
      simp
    have hmem : e.nesting ∈ ((parse_cmake_log lines true).1).map
        (fun e => e.nesting) := List.mem_map_of_mem _ he
    rw [h] at hmem
    rcases List.mem_filterMap.mp hmem with ⟨l, _, hval⟩
    cases l with
    | parsed ts fr file ln code =>
      simp only [if_pos rfl, Option.some.injEq] at hval
      exact hval.symm
    | unmatched t => exact Option.noConfusion hval
  · intro lines
    have h : ((parse_cmake_log lines false).1).map (fun e => e.nesting) =
        lines.filterMap (fun l =>
          match l with
          | .parsed _ fr _ _ code =>
            some (if (false : Bool) = true then (none : Option Int)
              else bumpNesting fr code)
          | .unmatched _ => none) := by
      rw [parse_cmake_log, parse_go_nesting]
      simp
    have hmm : ((parse_cmake_log lines false).1).map (fun e => e.nesting.isSome) =
        (((parse_cmake_log lines false).1).map (fun e => e.nesting)).map
          Option.isSome := by
      rw [List.map_map]
      rfl
    rw [hmm, h, List.map_filterMap]
    congr 1
    funext l
    cases l with
    | parsed ts fr file ln code => simp [bumpNesting_isSome]
    | unmatched t => rfl

/-- Witness for C7 (amended): the event of a single depth-less line parsed
in ignore-nesting mode has unknown depth. -/
theorem claim7_witness :
    (⟨none, (0 : ℚ), ⟨"f", 1, "a()"⟩⟩ : Event).nesting = none :=
  claim7_amended.1 [.parsed 0 none "f" 1 "a()"] ⟨none, 0, ⟨"f", 1, "a()"⟩⟩ (by decide)

/-- Counterexample for C8: a depth-annotated stream that aborts for a THIRD
reason, distinct from the two structural-fatal cases of the claim: its
first event carries depth 2 while the assumed initial depth is 1, so the
`diff == 1` branch indexes `subtraces[-1]` of the childless root and the
run dies with IndexError. -/
theorem claim8_counterexample :
    collect_stats eventsFirstDepthTwo = .error .indexError ∧
    BuildError.indexError ≠ BuildError.ascendPastRoot ∧
    BuildError.indexError ≠ BuildError.nestingJump := by
  exact ⟨by rfl, by decide, by decide⟩

/-- C8 (amended): on a well-formed builder state with known nesting, one
step aborts exactly when the depth increases by more than 1, or a depth
decrease would ascend past the synthetic root, or the depth increases by
exactly 1 while the current parent has no children (the IndexError of
`subtraces[-1]`, reachable only before any same-level node exists). -/
theorem claim8_amended (st : BuildState) (ct pt : ℚ) (cn pn : Int)
    (ti : CmakeTraceInfo) (hwf : WF st) (hcn : cn ≠ 0) :
    isOk (update_traces st ct pt cn pn ti) = false ↔
      1 < cn - pn ∨
      (cn - pn < 0 ∧ st.path.length < (pn - cn).toNat) ∨
      (cn - pn = 1 ∧ subtracesEmptyAt st = true) :=
  update_traces_abort_iff st ct pt cn pn ti hwf hcn

/-- Witness for C8 (amended): a depth jump from 1 to 5 aborts. -/
theorem claim8_witness :
    isOk (update_traces initBuildState 1 0 5 1 ⟨"f", 1, ""⟩) = false :=
  (claim8_amended initBuildState 1 0 5 1 ⟨"f", 1, ""⟩ (by decide) (by decide)).mpr
    (Or.inl (by decide))

/-- C9: rendering short-circuit.  At any sibling level, a node that fails
the depth bound or whose duration fraction is strictly below the threshold
stops the rendering of that node and of all remaining siblings at that
level; in particular with threshold 1/2 and top-level nodes of relative
durations 3/5 and 2/5 only the first is rendered. -/
theorem claim9 :
    (∀ (args : ReportArgs) (whole : ℚ) (fuel : Nat) (t : CmakeTrace)
      (ts : List CmakeTrace) (indent : Nat),
      (args.depth ≠ 0 ∧ (indent : Int) + 1 > args.depth) ∨
        qblt (qdiv t.duration whole) args.threshold = true →
      print_traces_loop args whole (fuel + 1) false (t :: ts) indent = []) ∧
    print_traces ⟨mkRat 1 2, 0, false, false⟩ [leafThreeFifths, leafTwoFifths] 1 =
      [⟨some ⟨"A", 1, ""⟩, 0, mkRat 3 5, 60⟩] :=
  ⟨print_traces_loop_head_stop, by decide⟩

/-- Witness for C9: a single node of relative duration 2/5 against
threshold 1 renders nothing. -/
theorem claim9_witness :
    print_traces_loop ⟨(1 : ℚ), 0, false, false⟩ 1 1 false [leafTwoFifths] 0 = [] :=
  claim9.1 ⟨1, 0, false, false⟩ 1 0 leafTwoFifths [] 0 (Or.inr (by decide))

/-- C10: heuristic placement never aborts.  A stream in which every event
has unknown depth (no depth annotations, or ignore-nesting forced) always
collects successfully, producing exactly one node per event. -/
theorem claim10 (events : List Event)
    (hall : ∀ e ∈ events, e.nesting = none) :
    (collect_stats events).map (fun st => countNodesList st.root.subtraces) =
      .ok events.length := by
  obtain ⟨st, hst⟩ := collect_stats_all_none events hall
  obtain ⟨hwf, hdur, hcount⟩ := collect_stats_spec events st hst
  rw [hst]
  simp only [Except.map]
  rw [countNodes_decomp, attributedDurations_length] at hcount
  congr 1
  omega

/-- Witness for C10: a single event without depth annotation. -/
theorem claim10_witness :
    (collect_stats [⟨none, 0, ⟨"wit.cmake", 1, "y()"⟩⟩]).map
      (fun st => countNodesList st.root.subtraces) = .ok 1 :=
  claim10 [⟨none, 0, ⟨"wit.cmake", 1, "y()"⟩⟩] (by decide)

end CmakeProfileStat
